import Mathlib

/-!
# greensone: recovery middleware and stack formatter

A shallow embedding of `gsweb/middleware/recovery.go`,
`gsweb/middleware/recovery_pro.go` and `test/test_middchain.go`.

Go strings and byte slices are modelled as lists of byte values (`Bytes`);
every theorem quantifying over `Bytes` therefore covers every Go string.
-/

set_option autoImplicit false

namespace Greensone

/-! ## Byte strings and the Go standard-library functions the source calls -/

/-- A Go `string` or `[]byte`: its sequence of byte values. -/
abbrev Bytes := List Nat

/-- The bytes of an ASCII literal. -/
def ascii (s : String) : Bytes := s.toList.map Char.toNat

/-- Go `bytes.HasPrefix(s, p)`. -/
def hasPrefix : Bytes → Bytes → Bool
  | _, [] => true
  | [], _ :: _ => false
  | b :: s, c :: p => b == c && hasPrefix s p

/-- Go `strings.Contains(s, sub)`: some suffix of `s` starts with `sub`. -/
def contains : Bytes → Bytes → Bool
  | [], sub => hasPrefix [] sub
  | b :: s, sub => hasPrefix (b :: s) sub || contains s sub

/-- The byte `b` is put in front of the first field of a split. -/
def consField (b : Nat) : List Bytes → List Bytes
  | [] => [[b]]
  | l :: ls => (b :: l) :: ls

/-- Scanner behind `strings.Split` for a non-empty separator: the first argument counts
the bytes of a separator just matched that still have to be passed over. -/
def splitAux (sep : Bytes) : Nat → Bytes → List Bytes
  | _, [] => [[]]
  | k + 1, _ :: rest => splitAux sep k rest
  | 0, b :: rest =>
    if hasPrefix (b :: rest) sep then [] :: splitAux sep (sep.length - 1) rest
    else consField b (splitAux sep 0 rest)

/-- Go `strings.Split(s, sep)` / `bytes.Split(s, sep)` for a non-empty `sep`
(every call site passes a non-empty literal): the fields between consecutive
leftmost non-overlapping occurrences of `sep`. -/
def split (s sep : Bytes) : List Bytes := splitAux sep 0 s

/-- Go `strings.Join(elems, sep)`. -/
def join : List Bytes → Bytes → Bytes
  | [], _ => []
  | [l], _ => l
  | l :: l2 :: ls, sep => l ++ sep ++ join (l2 :: ls) sep

/-- Scanner behind `bytes.Index`: `i` is the offset of the current suffix. -/
def indexFrom (sep : Bytes) : Bytes → Nat → Int
  | [], i => if sep = [] then (i : Int) else -1
  | b :: rest, i => if hasPrefix (b :: rest) sep then (i : Int) else indexFrom sep rest (i + 1)

/-- Go `bytes.Index(s, sep)`: offset of the first occurrence, or `-1`. -/
def index (s sep : Bytes) : Int := indexFrom sep s 0

/-- Scanner behind `bytes.LastIndex`: `last` is the latest occurrence seen so far. -/
def lastIndexFrom (sep : Bytes) : Bytes → Nat → Int → Int
  | [], i, last => if sep = [] then (i : Int) else last
  | b :: rest, i, last =>
    lastIndexFrom sep rest (i + 1) (if hasPrefix (b :: rest) sep then (i : Int) else last)

/-- Go `bytes.LastIndex(s, sep)`: offset of the last occurrence, or `-1`. -/
def lastIndex (s sep : Bytes) : Int := lastIndexFrom sep s 0 (-1)

/-- Scanner behind `bytes.Replace(s, old, new, -1)` for a non-empty `old`. -/
def replaceAux (old new : Bytes) : Nat → Bytes → Bytes
  | _, [] => []
  | k + 1, _ :: rest => replaceAux old new k rest
  | 0, b :: rest =>
    if hasPrefix (b :: rest) old then new ++ replaceAux old new (old.length - 1) rest
    else b :: replaceAux old new 0 rest

/-- Go `bytes.Replace(s, old, new, -1)` for a non-empty `old`: every leftmost
non-overlapping occurrence of `old` is replaced by `new`. -/
def replace (s old new : Bytes) : Bytes := replaceAux old new 0 s

/-- Go `bytes.HasSuffix(s, p)`. -/
def hasSuffix (s p : Bytes) : Bool := hasPrefix s.reverse p.reverse

/-- The UTF-8 encodings of the runes `unicode.IsSpace` holds for: the ASCII bytes
`\t \n \v \f \r` and the blank, U+0085, U+00A0, U+1680, U+2000 to U+200A, U+2028, U+2029,
U+202F, U+205F and U+3000. A byte sequence that is not valid UTF-8 decodes to U+FFFD,
which is no white space. -/
def spaceRunes : List Bytes :=
  [[9], [10], [11], [12], [13], [32], [0xC2, 0x85], [0xC2, 0xA0], [0xE1, 0x9A, 0x80],
   [0xE2, 0x80, 0x80], [0xE2, 0x80, 0x81], [0xE2, 0x80, 0x82], [0xE2, 0x80, 0x83],
   [0xE2, 0x80, 0x84], [0xE2, 0x80, 0x85], [0xE2, 0x80, 0x86], [0xE2, 0x80, 0x87],
   [0xE2, 0x80, 0x88], [0xE2, 0x80, 0x89], [0xE2, 0x80, 0x8A], [0xE2, 0x80, 0xA8],
   [0xE2, 0x80, 0xA9], [0xE2, 0x80, 0xAF], [0xE2, 0x81, 0x9F], [0xE3, 0x80, 0x80]]

/-- Go `bytes.TrimLeftFunc(s, unicode.IsSpace)`: white space runes are taken off the
front while there is one; the first argument bounds the number of rounds. -/
def trimLeftAux : Nat → Bytes → Bytes
  | 0, s => s
  | fuel + 1, s =>
    match spaceRunes.find? (hasPrefix s) with
    | some q => trimLeftAux fuel (s.drop q.length)
    | none => s

/-- Go `bytes.TrimRightFunc(s, unicode.IsSpace)`: white space runes are taken off the
end while the last rune is one; the first argument bounds the number of rounds. -/
def trimRightAux : Nat → Bytes → Bytes
  | 0, s => s
  | fuel + 1, s =>
    match spaceRunes.find? (hasSuffix s) with
    | some q => trimRightAux fuel (s.take (s.length - q.length))
    | none => s

/-- Go `bytes.TrimSpace(s)`: all leading and trailing white space, as Unicode defines
it, is taken off. Each round takes off at least one byte, so as many rounds as there
are bytes suffice. -/
def trimSpace (s : Bytes) : Bytes :=
  let t := trimLeftAux s.length s
  trimRightAux t.length t

/-- The lower-case form of an ASCII byte. -/
def lowerByte (b : Nat) : Nat := if 65 ≤ b ∧ b ≤ 90 then b + 32 else b

/-- Go `strings.ToLower(s)`. A string of ASCII bytes only is lowered byte by byte (the
fast path of the library); any other string is lowered by
`strings.Map(unicode.ToLower, s)`, which reads the Unicode case tables of the Go library
and is the argument `unicodeLower`. -/
def toLower (unicodeLower : Bytes → Bytes) (s : Bytes) : Bytes :=
  if s.all (fun b => b < 128) then s.map lowerByte else unicodeLower s

/-! ## `recovery_pro.go`: package-level values -/

/-- `dunno = []byte("???")`. -/
def dunno : Bytes := ascii "???"

/-- `centerDot = []byte("·")`: the two UTF-8 bytes of U+00B7. -/
def centerDot : Bytes := [0xC2, 0xB7]

/-- `dot = []byte(".")`. -/
def dot : Bytes := ascii "."

/-- `slash = []byte("/")`. -/
def slash : Bytes := ascii "/"

/-! ## `source` -/

/-- Go `int` arithmetic: the value of a 64-bit two's-complement result. -/
def wrapInt64 (n : Int) : Int := (n + 2 ^ 63) % 2 ^ 64 - 2 ^ 63

/-- The function `source(lines, n)`. An index outside the slice would be a run-time
panic, which is the `none` result. -/
def source (lines : List Bytes) (n : Int) : Option Bytes :=
  let n := wrapInt64 (n - 1)
  if n < 0 ∨ n ≥ (lines.length : Int) then some dunno
  else (lines.get? n.toNat).map trimSpace

/-! ## The run-time environment read by the stack formatter -/

/-- One result of `runtime.Caller`: program counter, file name and line number. -/
structure Frame where
  pc : Nat
  file : Bytes
  line : Int
deriving DecidableEq, Repr

/-- A wall-clock reading of `time.Now()`, by its calendar fields. -/
structure Time where
  year : Nat
  month : Nat
  day : Nat
  hour : Nat
  minute : Nat
  second : Nat
deriving DecidableEq, Repr

/-- The part of the Go run time and of the file system that `stack` and `function` read.
`callers` lists the results of `runtime.Caller(0)`, `runtime.Caller(1)`, ... for which
`ok` is true; `funcName pc` is `runtime.FuncForPC(pc).Name()`, or `none` when
`FuncForPC` returns nil; `readFile k f` is the result of the `k`-th call of
`ioutil.ReadFile` (counted from zero) when it is asked for file `f`, `none` standing
for a non-nil error; `now` is the reading of `time.Now()`; `unicodeLower s` is
`strings.Map(unicode.ToLower, s)`, which `strings.ToLower` calls for a string with a
byte outside ASCII. -/
structure Runtime where
  callers : List Frame
  funcName : Nat → Option Bytes
  readFile : Nat → Bytes → Option Bytes
  now : Time
  unicodeLower : Bytes → Bytes

/-! ## `function` -/

/-- The function `function(pc)`. -/
def function (rt : Runtime) (pc : Nat) : Bytes :=
  match rt.funcName pc with
  | none => dunno
  | some fnName =>
    let name := fnName
    let lastSlash := lastIndex name slash
    let name := if lastSlash ≥ 0 then name.drop (lastSlash + 1).toNat else name
    let period := index name dot
    let name := if period ≥ 0 then name.drop (period + 1).toNat else name
    replace name centerDot dot

/-- What is left of `s` after its last byte `c`; all of `s` when `c` does not occur. -/
def afterLast (c : Nat) (s : Bytes) : Bytes := (s.reverse.takeWhile (· != c)).reverse

/-- What is left of `s` after its first byte `c`; all of `s` when `c` does not occur. -/
def afterFirst (c : Nat) (s : Bytes) : Bytes :=
  if c ∈ s then (s.dropWhile (· != c)).tail else s

/-- Every center dot (the byte pair `0xC2 0xB7`) read from the left becomes one `.`. -/
def normalizeDots : Bytes → Bytes
  | 0xC2 :: 0xB7 :: rest => 46 :: normalizeDots rest
  | b :: rest => b :: normalizeDots rest
  | [] => []

/-- The shortening of a function name as the specification words it: drop everything
through the last `/`, then everything through the first `.`, then normalise the center
dots. -/
def shortNameSpec (name : Bytes) : Bytes :=
  normalizeDots (afterFirst 46 (afterLast 47 name))

/-! ## `stack` -/

/-- The verbs `%d` and `%x` of `fmt` on a non-negative number: its digits in the base. -/
def fmtNat (base n : Nat) : Bytes := (Nat.toDigits base n).map Char.toNat

/-- The verb `%d` of `fmt` on an `int`. -/
def fmtInt (n : Int) : Bytes :=
  if n < 0 then 45 :: fmtNat 10 n.natAbs else fmtNat 10 n.natAbs

/-- The text of `fmt.Fprintf(buf, "%s:%d (0x%x)\n", file, line, pc)`. -/
def frameHeader (f : Frame) : Bytes :=
  f.file ++ ascii ":" ++ fmtInt f.line ++ ascii " (0x" ++ fmtNat 16 f.pc ++ ascii ")\n"

/-- The text of `fmt.Fprintf(buf, "\t%s: %s\n", function(pc), source(lines, line))`;
`none` when `source` indexes outside `lines`. -/
def frameDetail (rt : Runtime) (f : Frame) (lines : List Bytes) : Option Bytes :=
  (source lines f.line).map fun src =>
    ascii "\t" ++ function rt f.pc ++ ascii ": " ++ src ++ ascii "\n"

/-- The variables of the loop of `stack`, and the number of `ioutil.ReadFile` calls made. -/
structure StackState where
  buf : Bytes
  lines : List Bytes
  lastFile : Bytes
  reads : Nat
deriving DecidableEq, Repr

/-- The loop of `stack` over the frames `runtime.Caller` still yields. -/
def stackLoop (rt : Runtime) : List Frame → StackState → Option StackState
  | [], st => some st
  | f :: fs, st =>
    let st := { st with buf := st.buf ++ frameHeader f }
    if f.file ≠ st.lastFile then
      match rt.readFile st.reads f.file with
      | none => stackLoop rt fs { st with reads := st.reads + 1 }
      | some data =>
        let st := { st with lines := split data [10], lastFile := f.file, reads := st.reads + 1 }
        match frameDetail rt f st.lines with
        | none => none
        | some d => stackLoop rt fs { st with buf := st.buf ++ d }
    else
      match frameDetail rt f st.lines with
      | none => none
      | some d => stackLoop rt fs { st with buf := st.buf ++ d }

/-- The function `stack(skip)`: `none` stands for a run-time panic. -/
def stack (rt : Runtime) (skip : Nat) : Option Bytes :=
  (stackLoop rt (rt.callers.drop skip) { buf := [], lines := [], lastFile := [], reads := 0 }).map
    fun st => st.buf

/-! ## Go values carried by a panic -/

mutual
/-- The values of Go's `error` interface that are not the nil interface, by the dynamic
types `recovery_pro.go` tells apart: a `*net.OpError`, either the nil pointer or a pointer
to a struct (fields `Op`, `Net`, the texts of `Source` and `Addr` when they are not nil,
and `Err`); a `*os.SyscallError`, either the nil pointer or a pointer to a struct (fields
`Syscall` and `Err`); and an error of any other type with the text its `Error()`
returns. -/
inductive GoError where
  | other (msg : Bytes)
  | syscallErrorNil
  | syscallError (syscall : Bytes) (err : ErrField)
  | opErrorNil
  | opError (op net : Bytes) (source addr : Option Bytes) (err : ErrField)
deriving DecidableEq, Repr
/-- A field `Err error`: the nil interface or an error value. -/
inductive ErrField where
  | nil
  | val (e : GoError)
deriving DecidableEq, Repr
end

mutual
/-- The method `Error()`, as `os` and `net` define it; `none` when the call panics on a
nil pointer: `(*os.SyscallError).Error` reads `e.Syscall` and calls `e.Err.Error()`,
`(*net.OpError).Error` returns `<nil>` for a nil receiver and else calls
`e.Err.Error()`. -/
def GoError.Error : GoError → Option Bytes
  | .other msg => some msg
  | .syscallErrorNil => none
  | .syscallError syscall err => err.Error.map fun t => syscall ++ ascii ": " ++ t
  | .opErrorNil => some (ascii "<nil>")
  | .opError op net source addr err =>
    let s := op
    let s := if net ≠ [] then s ++ ascii " " ++ net else s
    let s := match source with
      | some src => s ++ ascii " " ++ src
      | none => s
    let s := match addr with
      | some a => (if source.isSome then s ++ ascii "->" else s ++ ascii " ") ++ a
      | none => s
    err.Error.map fun t => s ++ ascii ": " ++ t
/-- The call `e.Err.Error()` on a field: a nil interface makes it panic. -/
def ErrField.Error : ErrField → Option Bytes
  | .nil => none
  | .val e => e.Error
end

/-- The type assertion `e.(*os.SyscallError)` succeeds (also for the nil pointer). -/
def GoError.isSyscallError : GoError → Bool
  | .syscallErrorNil => true
  | .syscallError _ _ => true
  | _ => false

/-- A value of type `interface{}` handed to `panic` and returned by `recover()`: a string,
an `int` or an error. It is never nil: `recover()` returns nil exactly when no panic is
under way, which is the `ret` case of `Outcome`. -/
inductive GoValue where
  | str (s : Bytes)
  | int (n : Int)
  | error (e : GoError)
deriving DecidableEq, Repr

/-- The value a nil pointer dereference panics with. -/
def nilDereference : GoValue :=
  .error (.other (ascii "runtime error: invalid memory address or nil pointer dereference"))

/-- The text the verb `%s` of `fmt` prints for a value. For an error it is the text of
`Error()`; when that call panics, `fmt` prints `<nil>` for a nil pointer and the panic
otherwise. -/
def fmtS : GoValue → Bytes
  | .str s => s
  | .int n => ascii "%!s(int=" ++ fmtInt n ++ ascii ")"
  | .error e =>
    match e.Error with
    | some t => t
    | none =>
      if e = .syscallErrorNil then ascii "<nil>"
      else ascii "%!s(PANIC=Error method: runtime error: invalid memory address or nil pointer dereference)"

/-- Go `fmt.Sprintf` for a format whose only verb is `%s`, on operands already rendered
by `%s`; a verb without an operand prints `%!s(MISSING)`. -/
def sprintf : Bytes → List Bytes → Bytes
  | 37 :: 115 :: rest, a :: args => a ++ sprintf rest args
  | 37 :: 115 :: rest, [] => ascii "%!s(MISSING)" ++ sprintf rest []
  | b :: rest, args => b :: sprintf rest args
  | [], _ => []

/-! ## Lines 53-60 and 63-71 of `CustomRecoveryWithWriter` -/

/-- The classification of lines 53-60: the value of `brokenPipe` after the nested `if`s;
`none` when the classification itself panics on a nil pointer, which `ne.Err` does for a
nil `*net.OpError` and `se.Error()` for a `*os.SyscallError` that is nil or whose `Err`
chain ends in a nil. -/
def brokenPipe (rt : Runtime) (err : GoValue) : Option Bool :=
  match err with
  | .error .opErrorNil => none
  | .error (.opError _ _ _ _ (.val se)) =>
    if se.isSyscallError then
      se.Error.map fun text =>
        contains (toLower rt.unicodeLower text) (ascii "broken pipe") ||
          contains (toLower rt.unicodeLower text) (ascii "connection reset by peer")
    else some false
  | _ => some false

/-- The body of the loop of lines 65-70 for one header: the new value of `headers[idx]`;
`none` when `current[0]` indexes an empty slice. -/
def redactHeader (header : Bytes) : Option Bytes :=
  let current := split header (ascii ":")
  match current with
  | [] => none
  | current0 :: _ =>
    if current0 = ascii "Authorization" then some (current0 ++ ascii ": *") else some header

/-- The loop of lines 65-70 over `headers`: the slice it leaves. -/
def redactHeaders : List Bytes → Option (List Bytes)
  | [] => some []
  | header :: rest =>
    match redactHeader header with
    | none => none
    | some h => (redactHeaders rest).map fun hs => h :: hs

/-- Lines 64-71: the value of `headersToStr` for the dump `httpRequest`. -/
def headersToStr (httpRequest : Bytes) : Option Bytes :=
  let headers := split httpRequest (ascii "\r\n")
  (redactHeaders headers).map fun headers => join headers (ascii "\r\n")

/-! ## The `gsweb` package: Context, response and log -/

/-- The request of a Context, as far as the middleware reads it: the bytes
`httputil.DumpRequest(req, false)` returns (empty when it returns an error). -/
structure Request where
  dump : Bytes
deriving DecidableEq, Repr

/-- Modelled from the spec: the type `gsweb.Context` is not among the sources. Section 3
gives its fields: the request, the cursor into the handler chain (starting at -1), the
abort flag, the ordered list of recorded errors, the response status and the response
body. The status is kept as the sequence of status writes, so that either policy the
spec allows (first writer wins, last writer wins) can read it; the body is the sequence
of values written. -/
structure Context where
  request : Request
  cursor : Int
  aborted : Bool
  errors : List GoError
  statusWrites : List Nat
  body : List GoValue
deriving DecidableEq, Repr

/-- Modelled from the spec: `gsweb.LogError(msg, fields)` is not among the sources. One
log record: the message and the tagged values. -/
structure LogRecord where
  msg : Bytes
  fields : List (Bytes × GoValue)
deriving DecidableEq, Repr

/-- Everything a handler can change: the Context, the standard output, the records
written through `gsweb.LogError`, and the messages printed through a `*log.Logger`. -/
structure World where
  ctx : Context
  stdout : Bytes
  appLog : List LogRecord
  loggerOut : List Bytes
deriving DecidableEq, Repr

/-- The two status policies section 3 of the spec allows. -/
inductive StatusPolicy where
  | firstWriterWins
  | lastWriterWins
deriving DecidableEq, Repr

/-- Modelled from the spec: the authoritative response status under a policy, 200 when
no status was written. -/
def Context.status (p : StatusPolicy) (c : Context) : Nat :=
  match p with
  | .firstWriterWins => c.statusWrites.head?.getD 200
  | .lastWriterWins => c.statusWrites.getLast?.getD 200

/-- Modelled from the spec: `Context.Abort` (section 4.1) sets the abort flag. -/
def Context.Abort (c : Context) : Context := { c with aborted := true }

/-- Modelled from the spec: `Context.SetStatus(code)` writes the response status. -/
def Context.SetStatus (c : Context) (code : Nat) : Context :=
  { c with statusWrites := c.statusWrites ++ [code] }

/-- Modelled from the spec: `Context.AbortWithStatus(code)` (section 4.1) sets the
response status to `code`, then calls `Abort()`. -/
def Context.AbortWithStatus (c : Context) (code : Nat) : Context := (c.SetStatus code).Abort

/-- Modelled from the spec: `Context.Error(err)` (section 4.1) appends `err` to the
ordered list of recorded errors and alters nothing else. -/
def Context.Error (c : Context) (err : GoError) : Context := { c with errors := c.errors ++ [err] }

/-- Modelled from the spec: `Context.Json(value)` appends the value to the body; the
status defaults to 200 when none was set before the first body write (section 3). -/
def Context.Json (c : Context) (value : GoValue) : Context :=
  { c with
    statusWrites := if c.statusWrites = [] then [200] else c.statusWrites
    body := c.body ++ [value] }

/-! ## Control flow: return, panic and recovery -/

/-- How a call ends: it returns a value, it panics with a value, or it does not end
within the fuel given to the chain executor. Both of the first carry the state left. -/
inductive Outcome (α : Type) where
  | ret (a : α) (w : World)
  | panic (v : GoValue) (w : World)
  | diverge
deriving DecidableEq, Repr

/-- A Go function body run on the state of the request. -/
def Go (α : Type) : Type := World → Outcome α

/-- Sequencing: a panic of the first statement skips the second. -/
def Go.bind {α β : Type} (m : Go α) (f : α → Go β) : Go β := fun w =>
  match m w with
  | .ret a w1 => f a w1
  | .panic v w1 => .panic v w1
  | .diverge => .diverge

instance : Monad Go where
  pure a := fun w => .ret a w
  bind := Go.bind

/-- The statement `panic(v)`. -/
def goPanic {α : Type} (v : GoValue) : Go α := fun w => .panic v w

/-- A call of a method on the Context `c`. -/
def update (f : Context → Context) : Go Unit := fun w => .ret () { w with ctx := f w.ctx }

/-- Modelled from the spec: `Context.GetRequest()`. -/
def GetRequest : Go Request := fun w => .ret w.ctx.request w

/-- The call `fmt.Println(s)`. -/
def Println (s : Bytes) : Go Unit := fun w => .ret () { w with stdout := w.stdout ++ s ++ [10] }

/-- Modelled from the spec: `gsweb.LogError(msg, fields)` emits one log record. -/
def LogError (msg : Bytes) (fields : List (Bytes × GoValue)) : Go Unit := fun w =>
  .ret () { w with appLog := w.appLog ++ [⟨msg, fields⟩] }

/-- A function `func() (r T) { defer func() { if err := recover(); err != nil { onPanic(err) } }(); body }`
with an unnamed result: when `body` returns, so does the function; when `body` panics,
the deferred call runs `onPanic` on the recovered value and, if that returns, the function
returns the zero value of its result type; a panic of `onPanic` itself is not recovered. -/
def deferRecover {α : Type} (zero : α) (onPanic : GoValue → Go Unit) (body : Go α) : Go α :=
  fun w =>
    match body w with
    | .ret a w1 => .ret a w1
    | .panic v w1 =>
      match onPanic v w1 with
      | .ret _ w2 => .ret zero w2
      | .panic v2 w2 => .panic v2 w2
      | .diverge => .diverge
    | .diverge => .diverge

/-- The type `gsweb.HandlerFunc`, `func(c *Context) error`: the first argument is what a
call of `c.Next()` does. -/
def HandlerFunc : Type := Go Unit → Go (Option GoError)

/-- Modelled from the spec: `Context.Next()` is not among the sources. Section 4.1: a
no-op when the cursor is already past the last handler; else it advances the cursor by
one and, if the new cursor indexes a handler and the Context is not aborted, invokes that
handler with the same Context, whose returned error does not alter control flow. The
fuel bounds the nesting depth of the calls. -/
def Next (handlers : List HandlerFunc) : Nat → Go Unit
  | 0 => fun _ => .diverge
  | fuel + 1 => fun w =>
    if w.ctx.cursor ≥ (handlers.length : Int) then .ret () w
    else
      let w := { w with ctx := { w.ctx with cursor := w.ctx.cursor + 1 } }
      if w.ctx.aborted = false ∧ 0 ≤ w.ctx.cursor then
        match handlers.get? w.ctx.cursor.toNat with
        | none => .ret () w
        | some h =>
          match h (Next handlers fuel) w with
          | .ret _ w1 => .ret () w1
          | .panic v w1 => .panic v w1
          | .diverge => .diverge
      else .ret () w

/-- A Context before dispatch: cursor -1, not aborted, nothing recorded or written. -/
def freshWorld (req : Request) : World :=
  { ctx := { request := req, cursor := -1, aborted := false, errors := [],
             statusWrites := [], body := [] },
    stdout := [], appLog := [], loggerOut := [] }

/-! ## `test/test_middchain.go` -/

/-- The handler `TestH1()` returns. -/
def TestH1 : HandlerFunc := fun next => do
  Println (ascii "mid 1")
  next
  Println (ascii "mid 1 ")
  return none

/-- The handler `TestH2()` returns. -/
def TestH2 : HandlerFunc := fun next => do
  Println (ascii "mid 2")
  next
  Println (ascii "mid 2 ")
  return none

/-! ## `gsweb/middleware/recovery.go` -/

/-- The handler `Recovery()` returns. -/
def Recovery : HandlerFunc := fun next =>
  deferRecover none
    (fun err => do
      update fun c => (c.SetStatus 500).Json err
      LogError (ascii "panic happen :") [(ascii "err", err)])
    (do
      next
      return none)

/-! ## `gsweb/middleware/recovery_pro.go` -/

/-- The type `RecoveryFunc`, `func(c *gsweb.Context, err interface{})`: the first
argument is what a call of `c.Next()` does, the second the recovered value. -/
def RecoveryFunc : Type := Go Unit → GoValue → Go Unit

/-- A `*log.Logger` that is not nil, with the text it writes before each message. -/
structure Logger where
  pfx : Bytes
deriving DecidableEq, Repr

/-- The method `Printf` of a logger: one message is written. -/
def Logger.Printf (l : Logger) (format : Bytes) (args : List Bytes) : Go Unit := fun w =>
  .ret () { w with loggerOut := w.loggerOut ++ [l.pfx ++ sprintf format args] }

/-- A number in at least `width` decimal digits, padded with zeros. -/
def padNat (width n : Nat) : Bytes :=
  List.replicate (width - (fmtNat 10 n).length) 48 ++ fmtNat 10 n

/-- The function `timeFormat(t)`: the layout `2006/01/02 - 15:04:05`. -/
def timeFormat (t : Time) : Bytes :=
  padNat 4 t.year ++ ascii "/" ++ padNat 2 t.month ++ ascii "/" ++ padNat 2 t.day ++ ascii " - " ++
    padNat 2 t.hour ++ ascii ":" ++ padNat 2 t.minute ++ ascii ":" ++ padNat 2 t.second

/-- The function `defaultHandleRecovery`. -/
def defaultHandleRecovery : RecoveryFunc := fun _ _ =>
  update fun c => c.AbortWithStatus 500

/-- The type assertion `err.(error)`: it panics with a run-time error when the dynamic
type of `err` does not implement `error`. -/
def assertError (err : GoValue) : Go GoError :=
  match err with
  | .error e => pure e
  | _ => goPanic (.error (.other (ascii "interface conversion: interface {} is not error")))

/-- The block of lines 61-78, run when `logger` is not nil. -/
def logRecovered (rt : Runtime) (logger : Logger) (brokenPipe : Bool) (err : GoValue) : Go Unit := do
  let stack ← match stack rt 3 with
    | some b => (pure b : Go Bytes)
    | none => goPanic (.error (.other (ascii "runtime error: index out of range")))
  let httpRequest := (← GetRequest).dump
  let headersToStr ← match headersToStr httpRequest with
    | some h => (pure h : Go Bytes)
    | none => goPanic (.error (.other (ascii "runtime error: index out of range")))
  if brokenPipe then
    logger.Printf (ascii "%s\n%s%s") [fmtS err, headersToStr]
  else
    logger.Printf (ascii "[Recovery] %s panic recovered:\n%s\n%s%s")
      [timeFormat rt.now, fmtS err, stack]

/-- The body of the deferred function of `CustomRecoveryWithWriter` once `recover()` has
returned the value `err` that is not nil (lines 52-85), for the value `logger` has. -/
def recovered (rt : Runtime) (logger : Option Logger) (handle : RecoveryFunc) (next : Go Unit)
    (err : GoValue) : Go Unit := do
  let brokenPipe ← match brokenPipe rt err with
    | some b => (pure b : Go Bool)
    | none => goPanic nilDereference
  match logger with
  | some l => logRecovered rt l brokenPipe err
  | none => pure ()
  if brokenPipe then
    let e ← assertError err
    update fun c => c.Error e
    update fun c => c.Abort
  else
    handle next err

/-- The function `CustomRecoveryWithWriter(handle)`: `logger` is declared and never
assigned, so it is nil in the handler returned. -/
def CustomRecoveryWithWriter (rt : Runtime) (handle : RecoveryFunc) : HandlerFunc := fun next =>
  let logger : Option Logger := none
  deferRecover none (recovered rt logger handle next)
    (do
      next
      return none)

/-- The function `RecoveryWithWriter(recovery...)`. -/
def RecoveryWithWriter (rt : Runtime) (recovery : List RecoveryFunc) : HandlerFunc :=
  match recovery with
  | recovery0 :: _ => CustomRecoveryWithWriter rt recovery0
  | [] => CustomRecoveryWithWriter rt defaultHandleRecovery

/-- The function `RecoveryPro()`. -/
def RecoveryPro (rt : Runtime) : HandlerFunc := RecoveryWithWriter rt []

/-- The function `CustomRecovery(handle)`. -/
def CustomRecovery (rt : Runtime) (handle : RecoveryFunc) : HandlerFunc :=
  RecoveryWithWriter rt [handle]

/-! ## Values the statements on `function` are written with -/

/-- The name `runtime/debug.*T·ptrmethod` of the comment in `function`. -/
def ptrmethodName : Bytes := ascii "runtime/debug.*T" ++ centerDot ++ ascii "ptrmethod"

/-! ## Values the statements on the header redaction are written with -/

/-- The fields of a text between its `\r\n` pairs, read from the left. -/
def splitCRLF : Bytes → List Bytes
  | 13 :: 10 :: rest => [] :: splitCRLF rest
  | b :: rest => consField b (splitCRLF rest)
  | [] => [[]]

/-- What the specification asks of one line of the dump: a line whose first
colon-delimited token is exactly `Authorization` becomes `Authorization: *`, any other
line stays. -/
def redactedLine (header : Bytes) : Bytes :=
  if (split header (ascii ":")).head? = some (ascii "Authorization") then ascii "Authorization: *"
  else header

/-! ## Values the statements on `stack` are written with -/

/-- One round of the loop of `stack` on frame `f`, from the loop variables `st` to `st1`.
The header line is appended in every case. When the file of the frame is the file last
loaded, the tab-indented line is appended from the lines held, and no file is read.
Otherwise the file is read: when the read fails nothing more is appended and the lines
held are kept; when it succeeds its lines are loaded and the tab-indented line is
appended from them. -/
def FrameStep (rt : Runtime) (f : Frame) (st st1 : StackState) : Prop :=
  (f.file = st.lastFile ∧
    ∃ src, source st.lines f.line = some src ∧
      st1 = { st with
        buf := st.buf ++ frameHeader f ++
          (ascii "\t" ++ function rt f.pc ++ ascii ": " ++ src ++ ascii "\n") }) ∨
  (f.file ≠ st.lastFile ∧ rt.readFile st.reads f.file = none ∧
    st1 = { st with buf := st.buf ++ frameHeader f, reads := st.reads + 1 }) ∨
  (f.file ≠ st.lastFile ∧
    ∃ data src, rt.readFile st.reads f.file = some data ∧
      source (split data [10]) f.line = some src ∧
      st1 = { buf := st.buf ++ frameHeader f ++
                (ascii "\t" ++ function rt f.pc ++ ascii ": " ++ src ++ ascii "\n"),
              lines := split data [10], lastFile := f.file, reads := st.reads + 1 })

/-- A run time with three frames; `a.go` can be read, `b.go` cannot. (`stack` does not
consult `unicodeLower`.) -/
def rtDemo : Runtime where
  callers := [⟨16, ascii "a.go", 2⟩, ⟨17, ascii "a.go", 1⟩, ⟨18, ascii "b.go", 1⟩]
  funcName := fun pc => if pc = 16 then some (ascii "pkg/x.F") else none
  readFile := fun _ f => if f = ascii "a.go" then some (ascii "package a\n\tx := 1\n") else none
  now := ⟨2024, 3, 9, 7, 5, 0⟩
  unicodeLower := fun s => s

/-- A run time whose only frame lies in a file that cannot be read. (`stack` does not
consult `unicodeLower`.) -/
def rtUnreadable : Runtime where
  callers := [⟨18, ascii "b.go", 1⟩]
  funcName := fun _ => some (ascii "main.f")
  readFile := fun _ _ => none
  now := ⟨2024, 3, 9, 7, 5, 0⟩
  unicodeLower := fun s => s

/-! ## Values the statements on the handler chain are written with -/

/-- A handler of the shape of `TestH1` and `TestH2`: it prints `pre`, calls `c.Next()` once,
prints `post` and returns nil. -/
def onion (pre post : Bytes) : HandlerFunc := fun next => do
  Println pre
  next
  Println post
  return none

/-- The lines `fmt.Println` writes for a list of texts, in order. -/
def printed (lines : List Bytes) : Bytes := (lines.map fun l => l ++ [10]).flatten

/-! ## Handlers, requests and run times of the worked examples -/

/-- A terminal handler that sets status 201 and writes the body `ok`. -/
def handlerCreated : HandlerFunc := fun _ => do
  update fun c => (c.SetStatus 201).Json (.str (ascii "ok"))
  return none

/-- A terminal handler that panics with the string `divide by zero`. -/
def handlerDivide : HandlerFunc := fun _ => goPanic (.str (ascii "divide by zero"))

/-- A `RecoveryFunc` that raises the recovered value again. -/
def rethrow : RecoveryFunc := fun _ err => goPanic err

/-- A request whose dump carries an `Authorization` header. -/
def reqAuth : Request :=
  ⟨ascii "GET / HTTP/1.1\r\nHost: x\r\nAuthorization: Bearer abc123\r\n\r\n"⟩

/-- A run time with three frames of the recovery guard and one frame of a handler. The
texts lowered in the worked examples are ASCII, for which `strings.ToLower` does not
consult `unicodeLower`. -/
def rtDeep : Runtime where
  callers := [⟨1, ascii "r.go", 1⟩, ⟨2, ascii "r.go", 1⟩, ⟨3, ascii "p.go", 1⟩,
    ⟨16, ascii "a.go", 2⟩]
  funcName := fun pc => if pc = 16 then some (ascii "pkg/x.F") else none
  readFile := fun _ f => if f = ascii "a.go" then some (ascii "package a\n\tx := 1\n") else none
  now := ⟨2024, 3, 9, 7, 5, 0⟩
  unicodeLower := fun s => s

end Greensone

namespace Greensone

/-! ## Lemmas on the byte-string functions -/

theorem hasPrefix_singleton (b c : Nat) (rest : Bytes) :
    hasPrefix (b :: rest) [c] = (b == c) := by
  simp [hasPrefix]

theorem takeWhile_append_stop {α : Type} (p : α → Bool) (l m : List α) (a : α)
    (hl : ∀ x ∈ l, p x = true) (ha : p a = false) :
    (l ++ a :: m).takeWhile p = l := by
  induction l with
  | nil => simp [List.takeWhile, ha]
  | cons x l ih =>
    have hx : p x = true := hl x (List.mem_cons_self _ _)
    rw [List.cons_append, List.takeWhile_cons, if_pos hx,
      ih (fun y hy => hl y (List.mem_cons_of_mem _ hy))]

theorem dropWhile_append_stop {α : Type} (p : α → Bool) (l m : List α) (a : α)
    (hl : ∀ x ∈ l, p x = true) (ha : p a = false) :
    (l ++ a :: m).dropWhile p = a :: m := by
  induction l with
  | nil => simp [List.dropWhile, ha]
  | cons x l ih =>
    have hx : p x = true := hl x (List.mem_cons_self _ _)
    rw [List.cons_append, List.dropWhile_cons, if_pos hx]
    exact ih (fun y hy => hl y (List.mem_cons_of_mem _ hy))

theorem bne_of_not_mem {c : Nat} {l : Bytes} (h : c ∉ l) : ∀ x ∈ l, (x != c) = true := by
  intro x hx
  simp only [bne_iff_ne, ne_eq]
  intro e; exact h (e ▸ hx)

/-- The scanner of `LastIndex` for a one-byte separator: either the byte is absent and
the running answer is returned, or the answer is the offset of its last occurrence. -/
theorem lastIndexFrom_single (c : Nat) (s : Bytes) :
    ∀ (i : Nat) (last : Int),
      (c ∉ s ∧ lastIndexFrom [c] s i last = last) ∨
      (∃ pre post, s = pre ++ c :: post ∧ c ∉ post ∧
        lastIndexFrom [c] s i last = ((i + pre.length : Nat) : Int)) := by
  induction s with
  | nil => intro i last; left; simp [lastIndexFrom]
  | cons b rest ih =>
    intro i last
    simp only [lastIndexFrom, hasPrefix_singleton]
    rcases ih (i + 1) (if (b == c) = true then (i : Int) else last) with ⟨hno, hr⟩ | ⟨pre, post, hs, hpost, hr⟩
    · by_cases hbc : b = c
      · right
        refine ⟨[], rest, by simp [hbc], hno, ?_⟩
        rw [hr]; simp [hbc]
      · left
        refine ⟨by simp [hno, Ne.symm hbc], ?_⟩
        rw [hr]; simp [hbc]
    · right
      refine ⟨b :: pre, post, by simp [hs], hpost, ?_⟩
      rw [hr]; simp; omega

/-- The scanner of `Index` for a one-byte separator. -/
theorem indexFrom_single (c : Nat) (s : Bytes) :
    ∀ (i : Nat),
      (c ∉ s ∧ indexFrom [c] s i = -1) ∨
      (∃ pre post, s = pre ++ c :: post ∧ c ∉ pre ∧
        indexFrom [c] s i = ((i + pre.length : Nat) : Int)) := by
  induction s with
  | nil => intro i; left; simp [indexFrom]
  | cons b rest ih =>
    intro i
    simp only [indexFrom, hasPrefix_singleton]
    by_cases hbc : b = c
    · right
      exact ⟨[], rest, by simp [hbc], by simp, by simp [hbc]⟩
    · rcases ih (i + 1) with ⟨hno, hr⟩ | ⟨pre, post, hs, hpre, hr⟩
      · left
        refine ⟨by simp [hno, Ne.symm hbc], ?_⟩
        simp [hbc, hr]
      · right
        refine ⟨b :: pre, post, by simp [hs], by simp [hpre, Ne.symm hbc], ?_⟩
        simp [hbc, hr]; omega

theorem drop_after_lastIndex (s : Bytes) :
    (if lastIndex s slash ≥ 0 then s.drop (lastIndex s slash + 1).toNat else s) = afterLast 47 s := by
  have hslash : slash = [47] := by decide
  unfold lastIndex afterLast
  rw [hslash]
  rcases lastIndexFrom_single 47 s 0 (-1) with ⟨hno, hr⟩ | ⟨pre, post, hs, hpost, hr⟩
  · rw [hr]
    have : s.reverse.takeWhile (· != 47) = s.reverse := by
      rw [List.takeWhile_eq_self_iff]
      intro x hx
      exact bne_of_not_mem hno x (List.mem_reverse.mp hx)
    rw [this, List.reverse_reverse]
    simp
  · rw [hr]
    have h1 : s.reverse = post.reverse ++ 47 :: pre.reverse := by simp [hs]
    have h2 : s.reverse.takeWhile (· != 47) = post.reverse := by
      rw [h1]
      apply takeWhile_append_stop
      · intro x hx
        exact bne_of_not_mem hpost x (List.mem_reverse.mp hx)
      · simp
    rw [h2]
    have h3 : (((0 + pre.length : Nat) : Int) + 1).toNat = pre.length + 1 := by omega
    have h4 : ((0 + pre.length : Nat) : Int) ≥ 0 := by omega
    rw [if_pos h4, h3, hs]
    simp

theorem drop_after_index (s : Bytes) :
    (if index s dot ≥ 0 then s.drop (index s dot + 1).toNat else s) = afterFirst 46 s := by
  have hdot : dot = [46] := by decide
  unfold index afterFirst
  rw [hdot]
  rcases indexFrom_single 46 s 0 with ⟨hno, hr⟩ | ⟨pre, post, hs, hpre, hr⟩
  · rw [hr]; simp [hno]
  · rw [hr]
    have hmem : 46 ∈ s := by rw [hs]; simp
    have h2 : s.dropWhile (· != 46) = 46 :: post := by
      rw [hs]
      apply dropWhile_append_stop
      · exact bne_of_not_mem hpre
      · simp
    have h3 : (((0 + pre.length : Nat) : Int) + 1).toNat = pre.length + 1 := by omega
    have h4 : ((0 + pre.length : Nat) : Int) ≥ 0 := by omega
    rw [if_pos h4, h3, if_pos hmem, h2, hs]
    simp

theorem replace_centerDot (s : Bytes) : replace s centerDot dot = normalizeDots s := by
  have hdot : dot = [46] := by decide
  unfold replace
  rw [hdot]
  induction s using normalizeDots.induct with
  | case1 rest ih =>
    simp only [replaceAux, hasPrefix, centerDot, normalizeDots]
    simpa [replaceAux] using ih
  | case2 b rest hne ih =>
    have hp : hasPrefix (b :: rest) centerDot = false := by
      cases rest with
      | nil => simp [hasPrefix, centerDot]
      | cons c rest2 =>
        simp only [hasPrefix, centerDot, Bool.and_true, Bool.and_eq_false_imp, beq_iff_eq]
        intro hb
        by_contra hc
        simp only [Bool.not_eq_false, beq_iff_eq] at hc
        exact hne rest2 hb (by rw [hc])
    rw [normalizeDots]
    · simp only [replaceAux, hp]
      simpa using ih
    · intro rest2 hb hc
      exact hne rest2 hb hc
  | case3 => simp [replaceAux, normalizeDots]

theorem mem_normalizeDots (s : Bytes) (x : Nat) (hx : x ∈ normalizeDots s) : x ∈ s ∨ x = 46 := by
  induction s using normalizeDots.induct with
  | case1 rest ih =>
    simp only [normalizeDots, List.mem_cons] at hx
    rcases hx with h | h
    · right; exact h
    · rcases ih h with h2 | h2
      · left; simp [h2]
      · right; exact h2
  | case2 b rest hne ih =>
    rw [normalizeDots] at hx
    · simp only [List.mem_cons] at hx
      rcases hx with h | h
      · left; simp [h]
      · rcases ih h with h2 | h2
        · left; simp [h2]
        · right; exact h2
    · intro rest2 hb hc; exact hne rest2 hb hc
  | case3 => simp [normalizeDots] at hx

/-- The first byte of a normalised name is never the second byte of a center dot unless
the name itself began with it. -/
theorem head_normalizeDots (s : Bytes) (hs : ∀ rest, s ≠ 0xB7 :: rest) :
    ∀ rest, normalizeDots s ≠ 0xB7 :: rest := by
  intro rest h
  induction s using normalizeDots.induct with
  | case1 rest1 _ => simp [normalizeDots] at h
  | case2 b rest1 hne _ =>
    rw [normalizeDots] at h
    · simp only [List.cons.injEq] at h
      exact hs rest1 (by rw [h.1])
    · intro rest2 hb hc; exact hne rest2 hb hc
  | case3 => simp [normalizeDots] at h

theorem contains_normalizeDots (s : Bytes) : contains (normalizeDots s) centerDot = false := by
  induction s using normalizeDots.induct with
  | case1 rest ih =>
    simp only [normalizeDots, contains, ih, Bool.or_false]
    simp [hasPrefix, centerDot]
  | case2 b rest hne ih =>
    rw [normalizeDots]
    · simp only [contains, ih, Bool.or_false]
      cases hnr : normalizeDots rest with
      | nil => simp [hasPrefix, centerDot]
      | cons c rest2 =>
        simp only [hasPrefix, centerDot, Bool.and_true, Bool.and_eq_false_imp, beq_iff_eq]
        intro hb
        by_contra hc
        simp only [Bool.not_eq_false, beq_iff_eq] at hc
        refine head_normalizeDots rest ?_ rest2 (by rw [hnr, hc])
        intro rest3 h3
        exact hne rest3 hb h3
    · intro rest2 hb hc; exact hne rest2 hb hc
  | case3 => simp [normalizeDots, contains, hasPrefix, centerDot]

theorem not_mem_afterLast (c : Nat) (s : Bytes) : c ∉ afterLast c s := by
  unfold afterLast
  intro h
  have h2 := List.mem_takeWhile_imp (List.mem_reverse.mp h)
  simp at h2

theorem afterFirst_subset (c : Nat) (s : Bytes) (x : Nat) (hx : x ∈ afterFirst c s) : x ∈ s := by
  unfold afterFirst at hx
  split at hx
  · exact (List.dropWhile_sublist _).subset (List.mem_of_mem_tail hx)
  · exact hx

/-- The body of `function` after a successful `FuncForPC` computes `shortNameSpec`. -/
theorem function_some (rt : Runtime) (pc : Nat) (name : Bytes) (h : rt.funcName pc = some name) :
    function rt pc = shortNameSpec name := by
  unfold function shortNameSpec
  rw [h]
  simp only
  rw [drop_after_lastIndex, drop_after_index, replace_centerDot]

/-! ## `bytes.TrimSpace`: the rounds given suffice -/

theorem spaceRunes_nonempty : ∀ q ∈ spaceRunes, 1 ≤ q.length := by decide

/-- After as many rounds as there are bytes, no white space rune is left at the front. -/
theorem trimLeftAux_done :
    ∀ (fuel : Nat) (s : Bytes), s.length ≤ fuel →
      spaceRunes.find? (hasPrefix (trimLeftAux fuel s)) = none := by
  intro fuel
  induction fuel with
  | zero =>
    intro s hs
    have hnil : s = [] := List.length_eq_zero.mp (Nat.le_zero.mp hs)
    subst hnil
    decide
  | succ fuel ih =>
    intro s hs
    unfold trimLeftAux
    cases hq : spaceRunes.find? (hasPrefix s) with
    | none => simpa using hq
    | some q =>
      have hmem : q ∈ spaceRunes := List.mem_of_find?_eq_some hq
      have h1 := spaceRunes_nonempty q hmem
      exact ih _ (by rw [List.length_drop]; omega)

/-- After as many rounds as there are bytes, no white space rune is left at the end. -/
theorem trimRightAux_done :
    ∀ (fuel : Nat) (s : Bytes), s.length ≤ fuel →
      spaceRunes.find? (hasSuffix (trimRightAux fuel s)) = none := by
  intro fuel
  induction fuel with
  | zero =>
    intro s hs
    have hnil : s = [] := List.length_eq_zero.mp (Nat.le_zero.mp hs)
    subst hnil
    decide
  | succ fuel ih =>
    intro s hs
    unfold trimRightAux
    cases hq : spaceRunes.find? (hasSuffix s) with
    | none => simpa using hq
    | some q =>
      have hmem : q ∈ spaceRunes := List.mem_of_find?_eq_some hq
      have h1 := spaceRunes_nonempty q hmem
      exact ih _ (by rw [List.length_take]; omega)

/-- The result of `trimSpace` ends with no white space rune, and the text it is cut from
(the input without its leading white space) starts with none. -/
theorem trimSpace_done (s : Bytes) :
    spaceRunes.find? (hasPrefix (trimLeftAux s.length s)) = none ∧
    spaceRunes.find? (hasSuffix (trimSpace s)) = none :=
  ⟨trimLeftAux_done s.length s (Nat.le_refl _),
    trimRightAux_done _ _ (Nat.le_refl _)⟩

/-! ## Claims on `function` and `source` -/

/-- C9: `function` returns `???` when the program counter has no function, and else the
name with everything through the last `/` dropped, then everything through the first `.`
of what is left dropped, then the center dots turned into `.`; the result holds no `/`
and no center dot, and `runtime/debug.*T·ptrmethod` becomes `*T.ptrmethod`. -/
theorem function_shortens (rt : Runtime) (pc : Nat) :
    (function rt pc =
      match rt.funcName pc with
      | none => ascii "???"
      | some name => shortNameSpec name) ∧
    47 ∉ function rt pc ∧
    contains (function rt pc) centerDot = false ∧
    function { rt with funcName := fun _ => some ptrmethodName } pc = ascii "*T.ptrmethod" := by
  refine ⟨?_, ?_, ?_, ?_⟩
  · cases h : rt.funcName pc with
    | none => simp [function, h, dunno]
    | some name => simp only [function_some rt pc name h]
  · cases h : rt.funcName pc with
    | none =>
      have : function rt pc = dunno := by simp [function, h]
      rw [this]; decide
    | some name =>
      rw [function_some rt pc name h, shortNameSpec]
      intro hmem
      rcases mem_normalizeDots _ _ hmem with h2 | h2
      · exact not_mem_afterLast 47 name (afterFirst_subset 46 _ 47 h2)
      · omega
  · cases h : rt.funcName pc with
    | none =>
      have : function rt pc = dunno := by simp [function, h]
      rw [this]; decide
    | some name =>
      rw [function_some rt pc name h, shortNameSpec]
      exact contains_normalizeDots _
  · simp only [function]
    decide

/-- The guard of `source` keeps the index inside the slice. -/
theorem source_total (lines : List Bytes) (n : Int) : ∃ src, source lines n = some src := by
  unfold source
  simp only
  split
  · exact ⟨_, rfl⟩
  · rename_i h
    have hlt : (wrapInt64 (n - 1)).toNat < lines.length := by omega
    rw [List.get?_eq_get hlt]
    exact ⟨_, rfl⟩

/-- C10: `source` never indexes outside the slice, whatever `lines` and `n` are; and for a
slice shorter than `2^63` and every 64-bit `n` it returns the trimmed element `n-1` when
`1 ≤ n ≤ len(lines)` and `???` otherwise. -/
theorem source_in_bounds (lines : List Bytes) (n : Int) :
    source lines n ≠ none ∧
    ((lines.length : Int) < 2 ^ 63 → -2 ^ 63 ≤ n ∧ n < 2 ^ 63 →
      (1 ≤ n ∧ n ≤ lines.length →
        ∃ l, lines.get? (n - 1).toNat = some l ∧ source lines n = some (trimSpace l)) ∧
      (¬ (1 ≤ n ∧ n ≤ lines.length) → source lines n = some (ascii "???"))) := by
  constructor
  · unfold source
    simp only
    split
    · simp
    · rename_i h
      have hlt : (wrapInt64 (n - 1)).toNat < lines.length := by omega
      rw [List.get?_eq_get hlt]
      simp
  · intro hlen hn
    obtain ⟨hn1, hn2⟩ := hn
    constructor
    · rintro ⟨h1, h2⟩
      have hw : wrapInt64 (n - 1) = n - 1 := by unfold wrapInt64; omega
      have hlt : (n - 1).toNat < lines.length := by omega
      refine ⟨lines.get ⟨(n - 1).toNat, hlt⟩, List.get?_eq_get hlt, ?_⟩
      unfold source
      simp only [hw]
      rw [if_neg (by omega), List.get?_eq_get hlt]
      rfl
    · intro h
      unfold source
      simp only
      by_cases hmin : n = -2 ^ 63
      · have hw : wrapInt64 (n - 1) = 2 ^ 63 - 1 := by unfold wrapInt64; omega
        rw [hw, if_pos (by omega)]; rfl
      · have hw : wrapInt64 (n - 1) = n - 1 := by unfold wrapInt64; omega
        rw [hw, if_pos (by omega)]; rfl

/-- Witness of `source_in_bounds`: a two-line file asked for line 2. -/
theorem source_in_bounds_witness :
    source [ascii "package a", ascii "\tx := 1 "] 2 = some (ascii "x := 1") := by
  have h := ((source_in_bounds [ascii "package a", ascii "\tx := 1 "] 2).2 (by decide)
    (by decide)).1 (by decide)
  obtain ⟨l, hl, hs⟩ := h
  rw [hs]
  have : l = ascii "\tx := 1 " := by
    have h2 : [ascii "package a", ascii "\tx := 1 "].get? (2 - 1 : Int).toNat =
        some (ascii "\tx := 1 ") := by decide
    rw [h2] at hl
    exact (Option.some.inj hl).symm
  rw [this]
  decide

/-! ## `stack` -/

theorem frameDetail_eq (rt : Runtime) (f : Frame) (lines : List Bytes) :
    ∃ src, source lines f.line = some src ∧
      frameDetail rt f lines =
        some (ascii "\t" ++ function rt f.pc ++ ascii ": " ++ src ++ ascii "\n") := by
  obtain ⟨src, hs⟩ := source_total lines f.line
  exact ⟨src, hs, by simp [frameDetail, hs]⟩

/-- The loop of `stack` from any state: it ends, and the states it goes through are
linked round by round as `FrameStep` says. -/
theorem stackLoop_trace (rt : Runtime) :
    ∀ (frames : List Frame) (st : StackState),
      ∃ states : List StackState,
        states.length = frames.length + 1 ∧ states.head? = some st ∧
        stackLoop rt frames st = states.getLast? ∧
        (∀ i f s0 s1, frames.get? i = some f → states.get? i = some s0 →
          states.get? (i + 1) = some s1 → FrameStep rt f s0 s1) := by
  intro frames
  induction frames with
  | nil =>
    intro st
    refine ⟨[st], rfl, rfl, rfl, ?_⟩
    intro i f s0 s1 hf
    simp at hf
  | cons f fs ih =>
    intro st
    -- the state after the round on `f`
    have hstep : ∃ st1, stackLoop rt (f :: fs) st = stackLoop rt fs st1 ∧ FrameStep rt f st st1 := by
      by_cases hsame : f.file = st.lastFile
      · obtain ⟨src, hsrc, hd⟩ := frameDetail_eq rt f st.lines
        refine ⟨_, ?_, Or.inl ⟨hsame, src, hsrc, rfl⟩⟩
        simp only [stackLoop, ne_eq, hsame, not_true_eq_false, if_false, hd, List.append_assoc]
      · cases hread : rt.readFile st.reads f.file with
        | none =>
          refine ⟨_, ?_, Or.inr (Or.inl ⟨hsame, hread, rfl⟩)⟩
          simp only [stackLoop, ne_eq, hsame, not_false_eq_true, if_true, hread]
        | some data =>
          obtain ⟨src, hsrc, hd⟩ := frameDetail_eq rt f (split data [10])
          refine ⟨_, ?_, Or.inr (Or.inr ⟨hsame, data, src, hread, hsrc, rfl⟩)⟩
          simp only [stackLoop, ne_eq, hsame, not_false_eq_true, if_true, hread, hd,
            List.append_assoc]
    obtain ⟨st1, hloop, hfs⟩ := hstep
    obtain ⟨states, hlen, hhead, hlast, hsteps⟩ := ih st1
    cases states with
    | nil => simp at hlen
    | cons s1 rest =>
      simp only [List.head?_cons, Option.some.injEq] at hhead
      subst hhead
      refine ⟨st :: s1 :: rest, by simp [hlen], rfl, ?_, ?_⟩
      · rw [hloop, hlast, List.getLast?_cons_cons]
      · intro i g s0 s2 hg h0 h2
        cases i with
        | zero =>
          simp only [List.get?_cons_zero, List.get?_cons_succ, Option.some.injEq] at hg h0 h2
          subst hg; subst h0; subst h2
          exact hfs
        | succ i =>
          exact hsteps i g s0 s2 (by simpa using hg) (by simpa using h0) (by simpa using h2)

theorem stack_total (rt : Runtime) (skip : Nat) : ∃ st, stack rt skip = some st := by
  obtain ⟨states, hlen, _, hlast, _⟩ :=
    stackLoop_trace rt (rt.callers.drop skip) { buf := [], lines := [], lastFile := [], reads := 0 }
  cases hs : states.getLast? with
  | none =>
    rw [List.getLast?_eq_none_iff] at hs
    rw [hs] at hlen
    simp at hlen
  | some st1 =>
    exact ⟨st1.buf, by unfold stack; rw [hlast, hs]; rfl⟩

/-- C8, as the code has it: `stack` never fails; it starts with an empty buffer, no lines
and the empty file name as the file last loaded, goes through the frames from `skip` on
in order, and its output is the buffer at the end. For each frame it appends the header
line `<file>:<line> (0x<pc>)`; if the file of the frame is the one last loaded it appends
the tab-indented line `<function>: <source line>` from the lines held, without a read;
otherwise it reads the file, and on success loads its lines and appends the tab-indented
line from them, while on failure it appends nothing more for the frame and keeps the
lines held. On three frames, two of a readable file and one of an unreadable file, the
output is five lines. -/
theorem stack_renders_frames (rt : Runtime) (skip : Nat) :
    (∃ out, stack rt skip = some out) ∧
    (∃ states : List StackState,
      states.length = (rt.callers.drop skip).length + 1 ∧
      states.head? = some { buf := [], lines := [], lastFile := [], reads := 0 } ∧
      stack rt skip = states.getLast?.map (fun st => st.buf) ∧
      (∀ i f s0 s1, (rt.callers.drop skip).get? i = some f → states.get? i = some s0 →
        states.get? (i + 1) = some s1 → FrameStep rt f s0 s1)) ∧
    stack rtDemo 0 = some (ascii
      "a.go:2 (0x10)\n\tF: x := 1\na.go:1 (0x11)\n\t???: package a\nb.go:1 (0x12)\n") := by
  refine ⟨stack_total rt skip, ?_, by decide⟩
  obtain ⟨states, hlen, hhead, hlast, hsteps⟩ :=
    stackLoop_trace rt (rt.callers.drop skip) { buf := [], lines := [], lastFile := [], reads := 0 }
  exact ⟨states, hlen, hhead, by unfold stack; rw [hlast], hsteps⟩

/-- C8 as stated fails: for a frame whose file cannot be read, `stack` renders the header
line alone, and no second line with the placeholder. -/
theorem stack_unreadable_header_only :
    stack rtUnreadable 0 = some (ascii "b.go:1 (0x12)\n") ∧
    stack rtUnreadable 0 ≠ some (ascii "b.go:1 (0x12)\n\tf: ???\n") := by
  decide

/-! ## The header redaction -/

theorem splitAux_ne_nil (sep : Bytes) (s : Bytes) : ∀ k, splitAux sep k s ≠ [] := by
  induction s with
  | nil => intro k; simp [splitAux]
  | cons b rest ih =>
    intro k
    cases k with
    | succ k => simp only [splitAux]; exact ih k
    | zero =>
      simp only [splitAux]
      split
      · simp
      · cases h : splitAux sep 0 rest with
        | nil => simp [consField]
        | cons l ls => simp [consField]

theorem split_crlf_eq (s : Bytes) : split s (ascii "\r\n") = splitCRLF s := by
  have hc : ascii "\r\n" = [13, 10] := by decide
  unfold split
  rw [hc]
  induction s using splitCRLF.induct with
  | case1 rest ih =>
    simp only [splitAux, hasPrefix, splitCRLF]
    simpa [splitAux] using ih
  | case2 b rest hne ih =>
    have hp : hasPrefix (b :: rest) [13, 10] = false := by
      cases rest with
      | nil => simp [hasPrefix]
      | cons c rest2 =>
        simp only [hasPrefix, Bool.and_true, Bool.and_eq_false_imp, beq_iff_eq]
        intro hb
        by_contra hc
        simp only [Bool.not_eq_false, beq_iff_eq] at hc
        exact hne rest2 hb (by rw [hc])
    rw [splitCRLF]
    · simp only [splitAux, hp]
      simpa using congrArg (consField b) ih
    · intro rest2 hb hc; exact hne rest2 hb hc
  | case3 => simp [splitAux, splitCRLF]

theorem splitCRLF_head (s : Bytes) (c : Nat) (l : Bytes) (ls : List Bytes)
    (h : splitCRLF s = (c :: l) :: ls) : ∃ r, s = c :: r := by
  cases s with
  | nil => simp [splitCRLF] at h
  | cons b rest =>
    by_cases hb : b = 13 ∧ ∃ r2, rest = 10 :: r2
    · obtain ⟨hb1, r2, hb2⟩ := hb
      subst hb1; subst hb2
      simp [splitCRLF] at h
    · rw [splitCRLF] at h
      · cases hr : splitCRLF rest with
        | nil => rw [hr] at h; simp only [consField, List.cons.injEq] at h; exact ⟨rest, by rw [h.1.1]⟩
        | cons l0 ls0 => rw [hr] at h; simp only [consField, List.cons.injEq] at h; exact ⟨rest, by rw [h.1.1]⟩
      · intro r2 h1 h2; exact hb ⟨h1, r2, h2⟩

theorem contains_cons_false {b : Nat} {l pat : Bytes} (h : contains (b :: l) pat = false) :
    hasPrefix (b :: l) pat = false ∧ contains l pat = false := by
  simpa [contains] using h

/-- No field of a split on `\r\n` holds a `\r\n`. -/
theorem splitCRLF_fields (s : Bytes) : ∀ l ∈ splitCRLF s, contains l [13, 10] = false := by
  induction s using splitCRLF.induct with
  | case1 rest ih =>
    intro l hl
    simp only [splitCRLF, List.mem_cons] at hl
    rcases hl with h | h
    · subst h; decide
    · exact ih l h
  | case2 b rest hne ih =>
    intro l hl
    rw [splitCRLF] at hl
    · cases hr : splitCRLF rest with
      | nil =>
        rw [hr] at hl
        simp only [consField, List.mem_singleton] at hl
        subst hl
        simp [contains, hasPrefix]
      | cons l0 ls0 =>
        rw [hr] at hl
        simp only [consField, List.mem_cons] at hl
        rcases hl with h | h
        · subst h
          have h0 : contains l0 [13, 10] = false := ih l0 (by rw [hr]; simp)
          simp only [contains, h0, Bool.or_false]
          cases l0 with
          | nil => simp [hasPrefix]
          | cons c l1 =>
            simp only [hasPrefix, Bool.and_true, Bool.and_eq_false_imp, beq_iff_eq]
            intro hb
            by_contra hc
            simp only [Bool.not_eq_false, beq_iff_eq] at hc
            obtain ⟨r, hrest⟩ := splitCRLF_head rest c l1 ls0 hr
            exact hne r hb (by rw [hrest, hc])
        · exact ih l (by rw [hr]; simp [h])
    · intro r2 h1 h2; exact hne r2 h1 h2
  | case3 =>
    intro l hl
    simp only [splitCRLF, List.mem_singleton] at hl
    subst hl; decide

/-- A field without `\r\n` followed by `\r\n` is split off whole. -/
theorem splitCRLF_append (l : Bytes) (hl : contains l [13, 10] = false) (rest : Bytes) :
    splitCRLF (l ++ 13 :: 10 :: rest) = l :: splitCRLF rest := by
  induction l with
  | nil => simp [splitCRLF]
  | cons b l1 ih =>
    obtain ⟨hp, hc⟩ := contains_cons_false hl
    rw [List.cons_append, splitCRLF]
    · rw [ih hc]; rfl
    · intro r2 hb h2
      cases l1 with
      | nil => simp at h2
      | cons c l2 =>
        simp only [List.cons_append, List.cons.injEq] at h2
        simp [hasPrefix, hb, h2.1] at hp

theorem splitCRLF_single (l : Bytes) (hl : contains l [13, 10] = false) : splitCRLF l = [l] := by
  induction l with
  | nil => simp [splitCRLF]
  | cons b l1 ih =>
    obtain ⟨hp, hc⟩ := contains_cons_false hl
    rw [splitCRLF]
    · rw [ih hc]; rfl
    · intro r2 hb h2
      simp [hasPrefix, hb, h2] at hp

/-- Splitting a text joined with `\r\n` from fields without `\r\n` gives the fields back. -/
theorem splitCRLF_join (ls : List Bytes) (hne : ls ≠ [])
    (hls : ∀ l ∈ ls, contains l [13, 10] = false) : splitCRLF (join ls [13, 10]) = ls := by
  induction ls with
  | nil => exact absurd rfl hne
  | cons l rest ih =>
    cases rest with
    | nil => simp only [join]; exact splitCRLF_single l (hls l (by simp))
    | cons l2 rest2 =>
      simp only [join, List.append_assoc, List.cons_append, List.nil_append]
      rw [splitCRLF_append l (hls l (by simp))]
      rw [ih (by simp) (fun x hx => hls x (List.mem_cons_of_mem _ hx))]

theorem redactHeader_eq (header : Bytes) : redactHeader header = some (redactedLine header) := by
  unfold redactHeader redactedLine
  cases hs : split header (ascii ":") with
  | nil => exact absurd hs (splitAux_ne_nil _ _ 0)
  | cons c0 cs =>
    simp only [List.head?_cons, Option.some.injEq]
    by_cases hc : c0 = ascii "Authorization"
    · subst hc
      simp only [if_true]
      decide
    · simp [hc]

theorem redactHeaders_eq (headers : List Bytes) :
    redactHeaders headers = some (headers.map redactedLine) := by
  induction headers with
  | nil => rfl
  | cons h hs ih => simp [redactHeaders, redactHeader_eq, ih]

theorem redactedLine_no_crlf (header : Bytes) (h : contains header [13, 10] = false) :
    contains (redactedLine header) [13, 10] = false := by
  unfold redactedLine
  split
  · decide
  · exact h

theorem hasPrefix_append (a pat X : Bytes) (h : hasPrefix a pat = true) :
    hasPrefix (a ++ X) pat = true := by
  induction a generalizing pat with
  | nil =>
    cases pat with
    | nil => cases X <;> simp [hasPrefix]
    | cons p ps => simp [hasPrefix] at h
  | cons b a1 ih =>
    cases pat with
    | nil => simp [hasPrefix]
    | cons p ps =>
      simp only [hasPrefix, Bool.and_eq_true, beq_iff_eq] at h
      simp only [List.cons_append, hasPrefix, Bool.and_eq_true, beq_iff_eq]
      exact ⟨h.1, ih ps h.2⟩

theorem hasPrefix_of_append (a pat X : Bytes) (c : Nat) (hc : c ∉ pat)
    (h : hasPrefix (a ++ c :: X) pat = true) : hasPrefix a pat = true := by
  induction a generalizing pat with
  | nil =>
    cases pat with
    | nil => simp [hasPrefix]
    | cons p ps =>
      simp only [List.nil_append, hasPrefix, Bool.and_eq_true, beq_iff_eq] at h
      exact absurd (by rw [h.1]; simp) hc
  | cons b a1 ih =>
    cases pat with
    | nil => simp [hasPrefix]
    | cons p ps =>
      simp only [List.cons_append, hasPrefix, Bool.and_eq_true, beq_iff_eq] at h
      simp only [hasPrefix, Bool.and_eq_true, beq_iff_eq]
      exact ⟨h.1, ih ps (fun hm => hc (List.mem_cons_of_mem _ hm)) h.2⟩

theorem contains_nil (pat : Bytes) (hp : pat ≠ []) : contains [] pat = false := by
  cases pat with
  | nil => exact absurd rfl hp
  | cons p ps => simp [contains, hasPrefix]

theorem contains_append_right (a X pat : Bytes) (h : contains X pat = true) :
    contains (a ++ X) pat = true := by
  induction a with
  | nil => simpa using h
  | cons b a1 ih => simp [contains, ih]

theorem contains_append_left (a X pat : Bytes) (h : contains a pat = true) :
    contains (a ++ X) pat = true := by
  induction a with
  | nil =>
    cases pat with
    | nil => cases X <;> simp [contains, hasPrefix]
    | cons p ps => simp [contains, hasPrefix] at h
  | cons b a1 ih =>
    simp only [contains, Bool.or_eq_true] at h
    simp only [List.cons_append, contains, Bool.or_eq_true]
    rcases h with h | h
    · left; exact hasPrefix_append (b :: a1) pat X h
    · right; exact ih h

/-- An occurrence of a pattern in `a ++ c :: X` lies in `a` or in `X` when the byte `c`
is not in the pattern. -/
theorem contains_split_at (a X pat : Bytes) (c : Nat) (hp : pat ≠ []) (hc : c ∉ pat)
    (h : contains (a ++ c :: X) pat = true) : contains a pat = true ∨ contains X pat = true := by
  induction a with
  | nil =>
    simp only [List.nil_append, contains, Bool.or_eq_true] at h
    rcases h with h | h
    · have := hasPrefix_of_append [] pat X c hc (by simpa using h)
      cases pat with
      | nil => exact absurd rfl hp
      | cons p ps => simp [hasPrefix] at this
    · right; exact h
  | cons b a1 ih =>
    simp only [List.cons_append, contains, Bool.or_eq_true] at h
    rcases h with h | h
    · left
      simp only [contains, Bool.or_eq_true]
      left
      exact hasPrefix_of_append (b :: a1) pat X c hc (by simpa using h)
    · rcases ih h with h2 | h2
      · left; simp [contains, h2]
      · right; exact h2

theorem contains_join_of_mem (ls : List Bytes) (sep pat l : Bytes) (hl : l ∈ ls)
    (h : contains l pat = true) : contains (join ls sep) pat = true := by
  induction ls with
  | nil => simp at hl
  | cons l1 rest ih =>
    cases rest with
    | nil =>
      simp only [List.mem_singleton] at hl
      subst hl
      simpa [join] using h
    | cons l2 rest2 =>
      simp only [join, List.append_assoc]
      rcases List.mem_cons.mp hl with h1 | h1
      · subst h1
        exact contains_append_left _ _ _ h
      · exact contains_append_right _ _ _ (contains_append_right _ _ _ (ih h1))

/-- An occurrence of a pattern without `\r` and `\n` in a text joined with `\r\n` lies in
one of the fields. -/
theorem mem_of_contains_join (ls : List Bytes) (pat : Bytes) (hp : pat ≠ [])
    (h13 : 13 ∉ pat) (h10 : 10 ∉ pat) (h : contains (join ls [13, 10]) pat = true) :
    ∃ l ∈ ls, contains l pat = true := by
  induction ls with
  | nil => simp [join, contains_nil pat hp] at h
  | cons l1 rest ih =>
    cases rest with
    | nil => exact ⟨l1, by simp, by simpa [join] using h⟩
    | cons l2 rest2 =>
      simp only [join, List.append_assoc, List.cons_append, List.nil_append] at h
      rcases contains_split_at l1 _ pat 13 hp h13 h with h1 | h1
      · exact ⟨l1, by simp, h1⟩
      · rcases contains_split_at [] _ pat 10 hp h10 (by simpa using h1) with h2 | h2
        · simp [contains_nil pat hp] at h2
        · obtain ⟨l, hl, hc⟩ := ih h2
          exact ⟨l, List.mem_cons_of_mem _ hl, hc⟩

theorem sprintf_brokenPipe (a b : Bytes) :
    sprintf (ascii "%s\n%s%s") [a, b] = a ++ ascii "\n" ++ b ++ ascii "%!s(MISSING)" := by
  have hf : ascii "%s\n%s%s" = [37, 115, 10, 37, 115, 37, 115] := by decide
  have hn : ascii "\n" = [10] := by decide
  rw [hf, hn]
  simp [sprintf]

theorem sprintf_generic (a b c : Bytes) :
    sprintf (ascii "[Recovery] %s panic recovered:\n%s\n%s%s") [a, b, c] =
      ascii "[Recovery] " ++ a ++ ascii " panic recovered:\n" ++ b ++ ascii "\n" ++ c ++
        ascii "%!s(MISSING)" := by
  have hP1 : ascii "[Recovery] " = [91, 82, 101, 99, 111, 118, 101, 114, 121, 93, 32] := by decide
  have hP2 : ascii " panic recovered:\n" =
      [32, 112, 97, 110, 105, 99, 32, 114, 101, 99, 111, 118, 101, 114, 101, 100, 58, 10] := by
    decide
  have hn : ascii "\n" = [10] := by decide
  have hf : ascii "[Recovery] %s panic recovered:\n%s\n%s%s" =
      [91, 82, 101, 99, 111, 118, 101, 114, 121, 93, 32, 37, 115,
        32, 112, 97, 110, 105, 99, 32, 114, 101, 99, 111, 118, 101, 114, 101, 100, 58, 10,
        37, 115, 10, 37, 115, 37, 115] := by decide
  rw [hf, hP1, hP2, hn]
  simp [sprintf]

/-- The block of lines 61-78 for either value of `brokenPipe`: with the stack text and
the redacted dump at hand, one message is printed. -/
theorem logRecovered_eq (rt : Runtime) (l : Logger) (bp : Bool) (err : GoValue) (w : World)
    (st out : Bytes) (hs : stack rt 3 = some st)
    (hh : headersToStr w.ctx.request.dump = some out) :
    logRecovered rt l bp err w =
      .ret () { w with loggerOut := w.loggerOut ++
        [l.pfx ++ if bp then fmtS err ++ ascii "\n" ++ out ++ ascii "%!s(MISSING)"
          else ascii "[Recovery] " ++ timeFormat rt.now ++ ascii " panic recovered:\n" ++
            fmtS err ++ ascii "\n" ++ st ++ ascii "%!s(MISSING)"] } := by
  cases bp with
  | true =>
    simp only [logRecovered, hs, bind, Go.bind, pure, GetRequest, hh, if_true, Logger.Printf,
      sprintf_brokenPipe]
  | false =>
    simp only [logRecovered, hs, bind, Go.bind, pure, GetRequest, hh]
    simp [Logger.Printf, sprintf_generic]

/-- C1: for every dump `headersToStr` yields a text; split on `\r\n` it has as many lines as
the dump, line by line the `Authorization` headers (first colon-delimited token exactly
`Authorization`) have become `Authorization: *` and every other line is unchanged; when
the dump has the line `Authorization: Bearer abc123` and no other line holds `abc123`,
the text contains `Authorization: *` and does not contain `abc123`. The block of lines
61-78 binds `headersToStr` to this same text for either value of `brokenPipe`, before it
prints the one message of its path. -/
theorem headersToStr_redacts (httpRequest : Bytes) :
    ∃ out, headersToStr httpRequest = some out ∧
      (split out (ascii "\r\n")).length = (split httpRequest (ascii "\r\n")).length ∧
      (∀ i header, (split httpRequest (ascii "\r\n")).get? i = some header →
        (split out (ascii "\r\n")).get? i =
          some (if (split header (ascii ":")).head? = some (ascii "Authorization")
            then ascii "Authorization: *" else header)) ∧
      (ascii "Authorization: Bearer abc123" ∈ split httpRequest (ascii "\r\n") →
        (∀ header ∈ split httpRequest (ascii "\r\n"),
          header ≠ ascii "Authorization: Bearer abc123" →
            contains header (ascii "abc123") = false) →
        contains out (ascii "Authorization: *") = true ∧
          contains out (ascii "abc123") = false) ∧
      (∀ (rt : Runtime) (l : Logger) (bp : Bool) (err : GoValue) (w : World),
        w.ctx.request.dump = httpRequest →
        ∃ st, stack rt 3 = some st ∧
          logRecovered rt l bp err w =
            .ret () { w with loggerOut := w.loggerOut ++
              [l.pfx ++ if bp then fmtS err ++ ascii "\n" ++ out ++ ascii "%!s(MISSING)"
                else ascii "[Recovery] " ++ timeFormat rt.now ++ ascii " panic recovered:\n" ++
                  fmtS err ++ ascii "\n" ++ st ++ ascii "%!s(MISSING)"] }) := by
  have hc : ascii "\r\n" = [13, 10] := by decide
  have hout : headersToStr httpRequest =
      some (join ((splitCRLF httpRequest).map redactedLine) [13, 10]) := by
    show (redactHeaders (split httpRequest (ascii "\r\n"))).map
      (fun headers => join headers (ascii "\r\n")) = _
    rw [split_crlf_eq, redactHeaders_eq, hc]
    rfl
  have hne : (splitCRLF httpRequest).map redactedLine ≠ [] := by
    intro h
    have h2 := List.map_eq_nil_iff.mp h
    exact splitAux_ne_nil (ascii "\r\n") httpRequest 0 (by
      have := split_crlf_eq httpRequest
      unfold split at this
      rw [this, h2])
  have hback : splitCRLF (join ((splitCRLF httpRequest).map redactedLine) [13, 10]) =
      (splitCRLF httpRequest).map redactedLine := by
    apply splitCRLF_join _ hne
    intro l hl
    obtain ⟨l0, hl0, rfl⟩ := List.mem_map.mp hl
    exact redactedLine_no_crlf l0 (splitCRLF_fields httpRequest l0 hl0)
  refine ⟨_, hout, ?_, ?_, ?_, ?_⟩
  · rw [split_crlf_eq, split_crlf_eq, hback, List.length_map]
  · intro i header hi
    rw [split_crlf_eq] at hi
    rw [split_crlf_eq, hback]
    rw [List.get?_eq_getElem?] at hi ⊢
    rw [List.getElem?_map, hi]
    rfl
  · intro hmem hother
    rw [split_crlf_eq] at hmem hother
    constructor
    · apply contains_join_of_mem _ _ _ (redactedLine (ascii "Authorization: Bearer abc123"))
      · exact List.mem_map.mpr ⟨_, hmem, rfl⟩
      · decide
    · by_contra hcon
      simp only [Bool.not_eq_false] at hcon
      obtain ⟨l, hl, hcl⟩ :=
        mem_of_contains_join _ (ascii "abc123") (by decide) (by decide) (by decide) hcon
      obtain ⟨l0, hl0, rfl⟩ := List.mem_map.mp hl
      unfold redactedLine at hcl
      split at hcl
      · revert hcl; decide
      · rename_i hfirst
        have hneq : l0 ≠ ascii "Authorization: Bearer abc123" := by
          intro he
          apply hfirst
          rw [he]
          decide
        rw [hother l0 hl0 hneq] at hcl
        cases hcl
  · intro rt l bp err w hw
    obtain ⟨st, hst⟩ := stack_total rt 3
    exact ⟨st, hst, logRecovered_eq rt l bp err w st _ hst (by rw [hw]; exact hout)⟩

/-! ## The classification of broken connections -/

/-- The faults `brokenPipe` holds for. -/
theorem brokenPipe_true_iff (rt : Runtime) (err : GoValue) :
    brokenPipe rt err = some true ↔
      ∃ op net source addr syscall inner text,
        err = .error (.opError op net source addr (.val (.syscallError syscall inner))) ∧
        (GoError.syscallError syscall inner).Error = some text ∧
        (contains (toLower rt.unicodeLower text) (ascii "broken pipe") = true ∨
          contains (toLower rt.unicodeLower text) (ascii "connection reset by peer") = true) := by
  constructor
  · intro h
    unfold brokenPipe at h
    split at h
    · cases h
    · rename_i op net source addr se
      cases se with
      | other msg => simp [GoError.isSyscallError] at h
      | syscallErrorNil => simp [GoError.isSyscallError, GoError.Error] at h
      | opErrorNil => simp [GoError.isSyscallError] at h
      | opError _ _ _ _ _ => simp [GoError.isSyscallError] at h
      | syscallError syscall inner =>
        simp only [GoError.isSyscallError, if_true, Option.map_eq_some'] at h
        obtain ⟨text, htext, hc⟩ := h
        refine ⟨op, net, source, addr, syscall, inner, text, rfl, htext, ?_⟩
        simpa using hc
    · cases h
  · rintro ⟨op, net, source, addr, syscall, inner, text, rfl, htext, hc⟩
    simp only [brokenPipe, GoError.isSyscallError, if_true, htext, Option.map_some',
      Option.some.injEq]
    simpa using hc

/-- The faults on which the classification itself panics. -/
theorem brokenPipe_none_iff (rt : Runtime) (err : GoValue) :
    brokenPipe rt err = none ↔
      err = .error .opErrorNil ∨
      ∃ op net source addr se,
        err = .error (.opError op net source addr (.val se)) ∧
        se.isSyscallError = true ∧ se.Error = none := by
  constructor
  · intro h
    unfold brokenPipe at h
    split at h
    · left; rfl
    · rename_i op net source addr se
      right
      by_cases hs : se.isSyscallError = true
      · rw [if_pos hs] at h
        exact ⟨op, net, source, addr, se, rfl, hs, by simpa using h⟩
      · rw [if_neg hs] at h
        cases h
    · cases h
  · rintro (rfl | ⟨op, net, source, addr, se, rfl, hs, he⟩)
    · rfl
    · simp [brokenPipe, hs, he]

/-- C2, as the code has it: `brokenPipe` is true exactly for a `*net.OpError` whose `Err`
is an `*os.SyscallError` whose `Error()` text, lower-cased by `strings.ToLower`, contains
`broken pipe` or `connection reset by peer`; any other fault on which the classification
ends is classified false. -/
theorem brokenPipe_iff (rt : Runtime) (err : GoValue) :
    (brokenPipe rt err = some true ↔
      ∃ op net source addr syscall inner text,
        err = .error (.opError op net source addr (.val (.syscallError syscall inner))) ∧
        (GoError.syscallError syscall inner).Error = some text ∧
        (contains (toLower rt.unicodeLower text) (ascii "broken pipe") = true ∨
          contains (toLower rt.unicodeLower text) (ascii "connection reset by peer") = true)) ∧
    (∀ b, brokenPipe rt err = some b →
      (¬ ∃ op net source addr syscall inner text,
        err = .error (.opError op net source addr (.val (.syscallError syscall inner))) ∧
        (GoError.syscallError syscall inner).Error = some text ∧
        (contains (toLower rt.unicodeLower text) (ascii "broken pipe") = true ∨
          contains (toLower rt.unicodeLower text) (ascii "connection reset by peer") = true)) →
      b = false) := by
  refine ⟨brokenPipe_true_iff rt err, ?_⟩
  intro b hb hno
  cases b with
  | false => rfl
  | true => exact absurd ((brokenPipe_true_iff rt err).mp hb) hno

/-- C2 as stated fails: an error that is not a `*net.OpError` and whose message is
`write: broken pipe` is classified `brokenPipe=false`, whatever the case tables are. -/
theorem brokenPipe_plain_error :
    (GoError.other (ascii "write: broken pipe")).Error = some (ascii "write: broken pipe") ∧
    contains (ascii "write: broken pipe") (ascii "broken pipe") = true ∧
    (∀ rt : Runtime,
      contains (toLower rt.unicodeLower (ascii "write: broken pipe")) (ascii "broken pipe") = true ∧
      brokenPipe rt (.error (.other (ascii "write: broken pipe"))) = some false) := by
  refine ⟨rfl, by decide, ?_⟩
  intro rt
  exact ⟨by rfl, rfl⟩

/-! ## The recovery middlewares -/

theorem brokenPipe_is_error (rt : Runtime) (v : GoValue) (h : brokenPipe rt v = some true) :
    ∃ e, v = .error e := by
  obtain ⟨op, net, source, addr, syscall, inner, text, rfl, _⟩ := (brokenPipe_true_iff rt v).mp h
  exact ⟨_, rfl⟩

theorem customRecovery_ret (rt : Runtime) (handle : RecoveryFunc) (next : Go Unit) (w w1 : World)
    (h : next w = .ret () w1) : CustomRecoveryWithWriter rt handle next w = .ret none w1 := by
  simp [CustomRecoveryWithWriter, deferRecover, bind, Go.bind, h, pure]

theorem customRecovery_diverge (rt : Runtime) (handle : RecoveryFunc) (next : Go Unit) (w : World)
    (h : next w = .diverge) : CustomRecoveryWithWriter rt handle next w = .diverge := by
  simp [CustomRecoveryWithWriter, deferRecover, bind, Go.bind, h]

theorem customRecovery_brokenPipe (rt : Runtime) (handle : RecoveryFunc) (next : Go Unit)
    (w w1 : World) (e : GoError) (h : next w = .panic (.error e) w1)
    (hb : brokenPipe rt (.error e) = some true) :
    CustomRecoveryWithWriter rt handle next w =
      .ret none { w1 with ctx := (w1.ctx.Error e).Abort } := by
  simp [CustomRecoveryWithWriter, deferRecover, recovered, assertError, update, bind, Go.bind, h,
    hb, pure]

theorem customRecovery_generic (rt : Runtime) (handle : RecoveryFunc) (next : Go Unit)
    (w w1 : World) (v : GoValue) (h : next w = .panic v w1) (hb : brokenPipe rt v = some false) :
    CustomRecoveryWithWriter rt handle next w =
      match handle next v w1 with
      | .ret _ w2 => .ret none w2
      | .panic v2 w2 => .panic v2 w2
      | .diverge => .diverge := by
  simp [CustomRecoveryWithWriter, deferRecover, recovered, bind, Go.bind, h, hb, pure]

theorem customRecovery_nil (rt : Runtime) (handle : RecoveryFunc) (next : Go Unit)
    (w w1 : World) (v : GoValue) (h : next w = .panic v w1) (hb : brokenPipe rt v = none) :
    CustomRecoveryWithWriter rt handle next w = .panic nilDereference w1 := by
  simp [CustomRecoveryWithWriter, deferRecover, recovered, bind, Go.bind, h, hb, goPanic]

/-- C3 fails on the code: when the chain panics with a nil `*net.OpError`, the type
assertion of line 54 succeeds and `ne.Err` on line 55 dereferences the nil pointer inside
the deferred function. The handler then panics with the run-time error, whatever the
`RecoveryFunc` is: the Context is left as the fault left it, with no error recorded, no
abort and no call of the `RecoveryFunc`. The same holds for a `*net.OpError` whose `Err`
is a nil `*os.SyscallError`. On every fault on which the classification ends the policy
is followed: on `brokenPipe` the error is recorded and the abort flag set, whatever the
`RecoveryFunc` is, and otherwise the outcome is that of one call of the `RecoveryFunc`;
`RecoveryWithWriter` takes the first `RecoveryFunc` supplied or the default, which writes
status 500 and sets the abort flag. -/
theorem recoveryPro_nil_opError (rt : Runtime) (handle : RecoveryFunc) (w : World)
    (op net : Bytes) (source addr : Option Bytes) :
    CustomRecoveryWithWriter rt handle (goPanic (.error .opErrorNil)) w =
      .panic nilDereference w ∧
    CustomRecoveryWithWriter rt handle
        (goPanic (.error (.opError op net source addr (.val .syscallErrorNil)))) w =
      .panic nilDereference w ∧
    RecoveryPro rtDeep (goPanic (.error .opErrorNil)) (freshWorld reqAuth) =
      .panic (.error (.other
        (ascii "runtime error: invalid memory address or nil pointer dereference")))
        (freshWorld reqAuth) ∧
    (∀ (next : Go Unit) (w1 : World) (v : GoValue), next w = .panic v w1 →
      brokenPipe rt v = some true →
      ∃ e, v = .error e ∧
        ∀ handle2 : RecoveryFunc, CustomRecoveryWithWriter rt handle2 next w =
          .ret none { w1 with ctx := { w1.ctx with errors := w1.ctx.errors ++ [e], aborted := true } }) ∧
    (∀ (next : Go Unit) (w1 : World) (v : GoValue), next w = .panic v w1 →
      brokenPipe rt v = some false →
      CustomRecoveryWithWriter rt handle next w =
        match handle next v w1 with
        | .ret _ w2 => .ret none w2
        | .panic v2 w2 => .panic v2 w2
        | .diverge => .diverge) ∧
    (∀ rest, RecoveryWithWriter rt (handle :: rest) = CustomRecoveryWithWriter rt handle) ∧
    RecoveryWithWriter rt [] = CustomRecoveryWithWriter rt defaultHandleRecovery ∧
    (∀ (nx : Go Unit) (v2 : GoValue) (w2 : World), defaultHandleRecovery nx v2 w2 =
      .ret () { w2 with ctx := { w2.ctx with statusWrites := w2.ctx.statusWrites ++ [500],
                                             aborted := true } }) := by
  refine ⟨?_, ?_, by decide, ?_, ?_, ?_, rfl, ?_⟩
  · exact customRecovery_nil rt handle _ w w _ rfl rfl
  · exact customRecovery_nil rt handle _ w w _ rfl rfl
  · intro next w1 v h hb
    obtain ⟨e, rfl⟩ := brokenPipe_is_error rt v hb
    refine ⟨e, rfl, ?_⟩
    intro handle2
    rw [customRecovery_brokenPipe rt handle2 next w w1 e h hb]
    rfl
  · intro next w1 v h hb
    exact customRecovery_generic rt handle next w w1 v h hb
  · intro rest; rfl
  · intro nx v2 w2; rfl

/-- C4, as the code has it: for every fault value on which the classification of lines
53-60 ends, and every `RecoveryFunc` that returns when it is called on the recovered
fault, the handler returns a nil error; and on the broken-pipe path the type assertion
`err.(error)` does not panic. -/
theorem recoveryPro_contains_fault (rt : Runtime) (handle : RecoveryFunc) (next : Go Unit)
    (w w1 : World) (v : GoValue) (b : Bool) (h : next w = .panic v w1)
    (hb : brokenPipe rt v = some b)
    (hret : b = false → ∃ w2, handle next v w1 = .ret () w2) :
    (∃ w2, CustomRecoveryWithWriter rt handle next w = .ret none w2) ∧
    (b = true → ∃ e, ∀ w2, assertError v w2 = .ret e w2) := by
  constructor
  · cases b with
    | true =>
      obtain ⟨e, rfl⟩ := brokenPipe_is_error rt v hb
      exact ⟨_, customRecovery_brokenPipe rt handle next w w1 e h hb⟩
    | false =>
      obtain ⟨w2, hw2⟩ := hret rfl
      refine ⟨w2, ?_⟩
      rw [customRecovery_generic rt handle next w w1 v h hb, hw2]
  · intro hbt
    subst hbt
    obtain ⟨e, rfl⟩ := brokenPipe_is_error rt v hb
    exact ⟨e, fun w2 => rfl⟩

/-- Witness of `recoveryPro_contains_fault`: an integer fault, which is not an error, under
the default `RecoveryFunc`. -/
theorem recoveryPro_contains_fault_witness :
    (∃ w2, CustomRecoveryWithWriter rtDeep defaultHandleRecovery (goPanic (.int 7))
      (freshWorld reqAuth) = .ret none w2) ∧
    (false = true → ∃ e, ∀ w2, assertError (.int 7) w2 = .ret e w2) :=
  recoveryPro_contains_fault rtDeep defaultHandleRecovery (goPanic (.int 7)) (freshWorld reqAuth)
    (freshWorld reqAuth) (.int 7) false rfl rfl (fun _ => ⟨_, rfl⟩)

/-- C4 as stated fails: with a `RecoveryFunc` that panics, the handler does not return; the
fault leaves the middleware. -/
theorem recoveryPro_rethrow_escapes :
    CustomRecoveryWithWriter rtDeep rethrow (goPanic (.str (ascii "boom"))) (freshWorld reqAuth) =
      .panic (.str (ascii "boom")) (freshWorld reqAuth) := by
  decide

/-- C5: when the chain below panics with a value, `Recovery` writes status 500, appends
the value to the body, emits one log record carrying the value and returns a nil error;
when the chain returns, `Recovery` returns a nil error and leaves the state as the chain
left it. The status write is the last one, and the first when none came before. For the
chain `[Recovery, H]` with `H` setting 201 and writing `ok` the response is 201 and `ok`
and nothing is logged; with `H` panicking with `divide by zero` the response is 500 and
the log record carries `divide by zero`. -/
theorem recovery_writes_500 (next : Go Unit) (w : World) :
    (Recovery next w =
      match next w with
      | .ret _ w1 => .ret none w1
      | .panic v w1 =>
        .ret none { w1 with
          ctx := { w1.ctx with statusWrites := w1.ctx.statusWrites ++ [500],
                               body := w1.ctx.body ++ [v] }
          appLog := w1.appLog ++ [⟨ascii "panic happen :", [(ascii "err", v)]⟩] }
      | .diverge => .diverge) ∧
    (∀ (c : Context) (v : GoValue),
      ((c.SetStatus 500).Json v).status .lastWriterWins = 500 ∧
      (c.statusWrites = [] → ((c.SetStatus 500).Json v).status .firstWriterWins = 500)) ∧
    (∀ req : Request, Next [Recovery, handlerCreated] 3 (freshWorld req) =
      .ret () { freshWorld req with
        ctx := { (freshWorld req).ctx with cursor := 1, statusWrites := [201],
                                           body := [.str (ascii "ok")] } }) ∧
    (∀ req : Request, Next [Recovery, handlerDivide] 3 (freshWorld req) =
      .ret () { freshWorld req with
        ctx := { (freshWorld req).ctx with cursor := 1, statusWrites := [500],
                                           body := [.str (ascii "divide by zero")] }
        appLog := [⟨ascii "panic happen :", [(ascii "err", .str (ascii "divide by zero"))]⟩] }) := by
  refine ⟨?_, ?_, ?_, ?_⟩
  · cases h : next w with
    | ret a w1 => simp [Recovery, deferRecover, bind, Go.bind, h, pure]
    | panic v w1 =>
      simp [Recovery, deferRecover, bind, Go.bind, h, update, LogError, Context.SetStatus,
        Context.Json]
    | diverge => simp [Recovery, deferRecover, bind, Go.bind, h]
  · intro c v
    constructor
    · simp [Context.status, Context.SetStatus, Context.Json]
    · intro hc
      simp [Context.status, Context.SetStatus, Context.Json, hc]
  · intro req; rfl
  · intro req; rfl

/-- C6 fails on the code: `logger` is nil in the handler `CustomRecoveryWithWriter` returns,
so a generic fault is recovered without any message being logged; and were a logger set,
the message of the generic path would end with `%!s(MISSING)` after the stack and would
not carry the headers. -/
theorem recoveryPro_logs_nothing :
    CustomRecoveryWithWriter rtDeep defaultHandleRecovery
        (goPanic (.str (ascii "divide by zero"))) (freshWorld reqAuth) =
      .ret none { freshWorld reqAuth with
        ctx := { (freshWorld reqAuth).ctx with statusWrites := [500], aborted := true }
        loggerOut := [] } ∧
    recovered rtDeep (some ⟨[]⟩) defaultHandleRecovery (pure ()) (.str (ascii "divide by zero"))
        (freshWorld reqAuth) =
      .ret () { freshWorld reqAuth with
        ctx := { (freshWorld reqAuth).ctx with statusWrites := [500], aborted := true }
        loggerOut := [ascii
          "[Recovery] 2024/03/09 - 07:05:00 panic recovered:\ndivide by zero\na.go:2 (0x10)\n\tF: x := 1\n%!s(MISSING)"] } := by
  decide

/-! ## The handler chain -/

theorem printed_cons (l : Bytes) (ls : List Bytes) : printed (l :: ls) = l ++ [10] ++ printed ls := by
  simp [printed]

theorem printed_append (as bs : List Bytes) : printed (as ++ bs) = printed as ++ printed bs := by
  simp [printed]

/-- The state in which `Next` enters a handler: the cursor advanced by one. -/
theorem Next_invoke (handlers : List HandlerFunc) (fuel : Nat) (w : World) (h : HandlerFunc)
    (hc : w.ctx.cursor < (handlers.length : Int)) (h0 : 0 ≤ w.ctx.cursor + 1)
    (ha : w.ctx.aborted = false)
    (hh : handlers.get? (w.ctx.cursor + 1).toNat = some h) :
    Next handlers (fuel + 1) w =
      match h (Next handlers fuel) { w with ctx := { w.ctx with cursor := w.ctx.cursor + 1 } } with
      | .ret _ w1 => .ret () w1
      | .panic v w1 => .panic v w1
      | .diverge => .diverge := by
  have hnot : ¬ (w.ctx.cursor ≥ (handlers.length : Int)) := by omega
  show (if w.ctx.cursor ≥ (handlers.length : Int) then Outcome.ret () w else _) = _
  rw [if_neg hnot]
  simp only [ha, h0, hh, and_self, if_true]

/-- A call of `Next` from the last handler only advances the cursor. -/
theorem Next_last (handlers : List HandlerFunc) (fuel : Nat) (w : World)
    (hc : w.ctx.cursor + 1 = (handlers.length : Int)) :
    Next handlers (fuel + 1) w =
      .ret () { w with ctx := { w.ctx with cursor := w.ctx.cursor + 1 } } := by
  have hnot : ¬ (w.ctx.cursor ≥ (handlers.length : Int)) := by omega
  have hnone : handlers.get? (w.ctx.cursor + 1).toNat = none := by
    rw [List.get?_eq_none]; omega
  show (if w.ctx.cursor ≥ (handlers.length : Int) then Outcome.ret () w else _) = _
  rw [if_neg hnot]
  simp only [hnone]
  split <;> rfl

theorem onion_apply (pre post : Bytes) (next : Go Unit) (w w1 : World)
    (h : next { w with stdout := w.stdout ++ pre ++ [10] } = .ret () w1) :
    onion pre post next w = .ret none { w1 with stdout := w1.stdout ++ post ++ [10] } := by
  simp only [onion, bind, Go.bind, Println, h, pure]

/-- The chain of onion handlers entered at handler `k`. -/
theorem onion_from (msgs : List (Bytes × Bytes)) :
    ∀ (fuel k : Nat) (w : World), k ≤ msgs.length → msgs.length - k < fuel →
      w.ctx.cursor = (k : Int) - 1 → w.ctx.aborted = false →
      Next (msgs.map fun m => onion m.1 m.2) fuel w =
        .ret () { w with
          ctx := { w.ctx with cursor := msgs.length }
          stdout := w.stdout ++ printed ((msgs.drop k).map Prod.fst) ++
            printed ((msgs.drop k).reverse.map Prod.snd) } := by
  intro fuel
  induction fuel with
  | zero => intro k w _ hf; omega
  | succ fuel ih =>
    intro k w hk hf hc ha
    have hidx : (w.ctx.cursor + 1).toNat = k := by omega
    have hlen : (msgs.map fun m => onion m.1 m.2).length = msgs.length := List.length_map _ _
    by_cases hlast : k = msgs.length
    · have hdrop : msgs.drop k = [] := by rw [hlast]; exact List.drop_length msgs
      have hend : w.ctx.cursor + 1 = (((msgs.map fun m => onion m.1 m.2).length : Nat) : Int) := by
        rw [hlen]; omega
      rw [Next_last (msgs.map fun m => onion m.1 m.2) fuel w hend, hdrop]
      have hcur : w.ctx.cursor + 1 = (msgs.length : Int) := by omega
      simp [printed, hcur]
    · have hlt : k < msgs.length := by omega
      have hsome : (msgs.map fun m => onion m.1 m.2).get? (w.ctx.cursor + 1).toNat =
          some (onion (msgs.get ⟨k, hlt⟩).1 (msgs.get ⟨k, hlt⟩).2) := by
        rw [hidx, List.get?_eq_getElem?, List.getElem?_map, List.getElem?_eq_getElem hlt]
        rfl
      have hdrop : msgs.drop k = msgs.get ⟨k, hlt⟩ :: msgs.drop (k + 1) := by
        rw [List.drop_eq_getElem_cons hlt]
        rfl
      have hrec := ih (k + 1)
        { ({ w with ctx := { w.ctx with cursor := w.ctx.cursor + 1 } } : World) with
          stdout := w.stdout ++ (msgs.get ⟨k, hlt⟩).1 ++ [10] }
        (by omega) (by omega) (by show w.ctx.cursor + 1 = ((k + 1 : Nat) : Int) - 1; omega) ha
      have hin : w.ctx.cursor < (((msgs.map fun m => onion m.1 m.2).length : Nat) : Int) := by
        rw [hlen]; omega
      rw [Next_invoke (msgs.map fun m => onion m.1 m.2) fuel w _ hin (by omega) ha hsome]
      rw [onion_apply _ _ _ _ _ hrec, hdrop]
      simp only [List.map_cons, List.reverse_cons, List.map_append, List.map_nil, printed_cons,
        printed_append, List.append_assoc]
      simp [printed]

/-- C7: for a chain of `N` handlers that each print a line, call `Next()` once and print a
second line, dispatched on a fresh Context with fuel above `N`, the run ends and the
output is the first lines in the order 1..N followed by the second lines in the order
N..1; `TestH1` and `TestH2` are such handlers, and the chain `[TestH1, TestH2]` prints
`mid 1`, `mid 2`, `mid 2 `, `mid 1 `. -/
theorem onion_order (msgs : List (Bytes × Bytes)) (fuel : Nat) (w : World)
    (hfuel : msgs.length < fuel) (hc : w.ctx.cursor = -1) (ha : w.ctx.aborted = false) :
    Next (msgs.map fun m => onion m.1 m.2) fuel w =
      .ret () { w with
        ctx := { w.ctx with cursor := msgs.length }
        stdout := w.stdout ++ printed (msgs.map Prod.fst) ++ printed (msgs.reverse.map Prod.snd) } ∧
    TestH1 = onion (ascii "mid 1") (ascii "mid 1 ") ∧
    TestH2 = onion (ascii "mid 2") (ascii "mid 2 ") ∧
    (∀ req : Request, Next [TestH1, TestH2] 3 (freshWorld req) =
      .ret () { freshWorld req with
        ctx := { (freshWorld req).ctx with cursor := 2 }
        stdout := ascii "mid 1\nmid 2\nmid 2 \nmid 1 \n" }) := by
  refine ⟨?_, rfl, rfl, ?_⟩
  · have h := onion_from msgs fuel 0 w (Nat.zero_le _) (by omega) (by rw [hc]; rfl) ha
    simpa using h
  · intro req
    rfl

/-- Witness of `onion_order`: the chain of the two test handlers on a fresh Context. -/
theorem onion_order_witness :
    Next [onion (ascii "mid 1") (ascii "mid 1 "), onion (ascii "mid 2") (ascii "mid 2 ")] 3
        (freshWorld ⟨[]⟩) =
      .ret () { freshWorld ⟨[]⟩ with
        ctx := { (freshWorld ⟨[]⟩).ctx with cursor := 2 }
        stdout := ascii "mid 1\nmid 2\nmid 2 \nmid 1 \n" } := by
  have h := (onion_order [(ascii "mid 1", ascii "mid 1 "), (ascii "mid 2", ascii "mid 2 ")] 3
    (freshWorld ⟨[]⟩) (by decide) rfl rfl).1
  rw [show [onion (ascii "mid 1") (ascii "mid 1 "), onion (ascii "mid 2") (ascii "mid 2 ")] =
    ([(ascii "mid 1", ascii "mid 1 "), (ascii "mid 2", ascii "mid 2 ")].map
      fun m => onion m.1 m.2) from rfl, h]
  decide

end Greensone
